import Mathlib

/-!
Verification of the in-memory priority cache (`RadialCircularList` and its
components) against its natural-language specification.

The C++ sources are shallowly embedded: machine `uint64_t` arithmetic is
`Nat` with explicit reduction modulo `2 ^ 64`, `std::string` keys are byte
lists, pointers into the node arena are arena indices, and the lock-free
structures are given their sequential (single-threaded, every CAS succeeds)
semantics, except for the key-index race in `MapRace` which is modelled as
an explicit interleaving step relation.
-/

namespace HFTCache

open scoped List

/-- `2 ^ 64`, the modulus of the C++ `uint64_t` arithmetic. -/
def U64MOD : Nat := 18446744073709551616

/-- `uint64_t` subtraction `a - b` (wrapping). -/
def u64sub (a b : Nat) : Nat := (a % U64MOD + U64MOD - b % U64MOD) % U64MOD

/-- Record stored in one arena slot (`node.hpp`, class `Node`).
`value` is the `double` payload; the claims only ever store and compare
exactly representable values, so it is embedded as a rational. -/
structure Node where
  value : ℚ
  priority : Int
  timestamp_ns : Nat
  expiry_time_ns : Nat
deriving DecidableEq

instance : Inhabited Node := ⟨⟨0, 0, 0, 0⟩⟩

/-- `static_cast<uint64_t>(expiry_time * 1'000'000'000)` for a non-negative
`double` TTL: the product truncated to an integer, computed on the
rational's numerator and denominator (all TTLs in the spec and claims are
non-negative and exactly representable; a negative TTL would be undefined
behaviour in the C++ cast). -/
def ttlToNs (q : ℚ) : Nat := q.num.toNat * 1000000000 / q.den

/-- `Node::is_expired` (node.hpp lines 19-23): `(now_ns - timestamp_ns) >
expiry_time_ns` in `uint64_t` arithmetic, with `now_ns` the clock value at
the call. -/
def Node.is_expired (n : Node) (now_ns : Nat) : Bool :=
  u64sub now_ns n.timestamp_ns > n.expiry_time_ns

/-! ### FNV-1a hash (`lockfree_map.hpp`, `LockFreeHashTable::hash`)

A `std::string` is a raw byte container; keys are embedded as byte lists.
On the target platform (Linux/x86-64, the source's `#ifdef __linux__`
branches) `char` is signed, so `static_cast<uint64_t>(c)` sign-extends
bytes `≥ 128`. -/

abbrev Key := List Nat

def FNV_PRIME : Nat := 0x100000001b3
def FNV_OFFSET : Nat := 0xcbf29ce484222325

/-- `static_cast<uint64_t>(c)` where `c : char` holds byte `b`:
bytes below 128 are unchanged, bytes `≥ 128` sign-extend. -/
def charToU64 (b : Nat) : Nat :=
  if b % 256 < 128 then b % 256 else U64MOD - 256 + b % 256

/-- One iteration of the hash loop: `h ^= static_cast<uint64_t>(c); h *= FNV_PRIME;`. -/
def hashStep (h b : Nat) : Nat := ((h ^^^ charToU64 b) * FNV_PRIME) % U64MOD

def BUCKETS : Nat := 64

/-- `LockFreeHashTable::hash` (lockfree_map.hpp lines 20-26). -/
def hash (key : Key) : Nat := (key.foldl hashStep FNV_OFFSET) % BUCKETS

/-! ### The per-bucket heap (`lockfree_heap.hpp`, class `LockFreeHeap`)

Heap cells hold atomic `Node*` values: embedded as `Option Nat`
(`none` = null, `some i` = pointer to arena slot `i`).  Dereferencing a
pointer reads the arena, which is passed to every heap operation as
`pool`.  Sequentially every CAS succeeds, so the sift loops never take
their abandon-on-contention branches. -/

structure LockFreeHeap where
  heap : List (Option Nat)
  size_ : Nat
  capacity : Nat
deriving DecidableEq

instance : Inhabited LockFreeHeap := ⟨⟨[], 0, 0⟩⟩

/-- `LockFreeHeap(initial_capacity)`: `capacity` cells, all null, size 0. -/
def LockFreeHeap.init (initial_capacity : Nat) : LockFreeHeap :=
  ⟨List.replicate initial_capacity none, 0, initial_capacity⟩

/-- Priority of the node an arena pointer refers to (`node->priority`). -/
def prioAt (pool : List Node) (i : Nat) : Int := (pool.getD i default).priority

/-- `node->priority` through a heap cell.  The `none` case is a null
dereference, undefined behaviour in the source; the value chosen here is
irrelevant because no claim depends on such states. -/
def cellPrio (pool : List Node) (c : Option Nat) : Int :=
  match c with
  | some i => prioAt pool i
  | none => 0

/-- The loop of `LockFreeHeap::sift_up` (lockfree_heap.hpp lines 19-32),
sequential semantics (both CASes succeed, so the loop never abandons).
The loop is made structurally recursive with fuel; each iteration moves
`index` to its parent `(index - 1) / 2 < index`, so with `fuel ≥ index`
the fuel can only run out at `index = 0`, where the loop stops anyway —
the fueled loop equals the C++ `while`. -/
def sift_up_go (pool : List Node) : Nat → List (Option Nat) → Nat → List (Option Nat)
  | 0, data, _ => data
  | _, data, 0 => data
  | fuel + 1, data, index + 1 =>
    let parent := index / 2
    match data.getD (index + 1) none, data.getD parent none with
    | some child, some parent_node =>
      if prioAt pool parent_node ≥ prioAt pool child then data
      else sift_up_go pool fuel
        ((data.set parent (some child)).set (index + 1) (some parent_node)) parent
    | _, _ => data

/-- `LockFreeHeap::sift_up`. -/
def sift_up (pool : List Node) (data : List (Option Nat)) (index : Nat) :
    List (Option Nat) :=
  sift_up_go pool index data index

/-- The `max_index` computed by one iteration of `LockFreeHeap::sift_down`
(lockfree_heap.hpp lines 36-48): the larger live child if it beats the
current cell, else `index` itself. -/
def siftTarget (pool : List Node) (current_size : Nat) (data : List (Option Nat))
    (index : Nat) : Nat :=
  let left := 2 * index + 1
  let right := 2 * index + 2
  let current := data.getD index none
  let m1 := if left < current_size ∧ (data.getD left none).isSome ∧
      cellPrio pool (data.getD left none) > cellPrio pool current then left else index
  if right < current_size ∧ (data.getD right none).isSome ∧
      cellPrio pool (data.getD right none) > cellPrio pool (data.getD m1 none)
    then right else m1

theorem siftTarget_bounds {pool : List Node} {current_size : Nat}
    {data : List (Option Nat)} {index : Nat}
    (h : siftTarget pool current_size data index ≠ index) :
    index < siftTarget pool current_size data index ∧
      siftTarget pool current_size data index < current_size := by
  unfold siftTarget at h ⊢
  dsimp only at h ⊢
  split_ifs at h ⊢ <;> omega

/-- The loop of `LockFreeHeap::sift_down` (lockfree_heap.hpp lines 34-58),
sequential semantics; `current_size` is the `size_` value loaded on entry.
The loop is made structurally recursive with fuel; every iteration that
continues moves `index` to a strictly larger child below `current_size`
(`siftTarget_bounds`), so with `fuel ≥ current_size - index` the fuel can
only run out once `index ≥ current_size`, where `siftTarget` returns
`index` and the loop stops anyway — the fueled loop equals the C++
`while (true)`. -/
def sift_down_go (pool : List Node) (current_size : Nat) :
    Nat → List (Option Nat) → Nat → List (Option Nat)
  | 0, data, _ => data
  | fuel + 1, data, index =>
    let m2 := siftTarget pool current_size data index
    if m2 = index then data
    else sift_down_go pool current_size fuel
      ((data.set index (data.getD m2 none)).set m2 (data.getD index none)) m2

/-- `LockFreeHeap::sift_down`. -/
def sift_down (pool : List Node) (current_size : Nat) (data : List (Option Nat))
    (index : Nat) : List (Option Nat) :=
  sift_down_go pool current_size current_size data index

/-- `LockFreeHeap::push` (lockfree_heap.hpp lines 65-76), sequential
semantics: the size CAS succeeds on the first try. -/
def LockFreeHeap.push (pool : List Node) (h : LockFreeHeap) (node : Nat) :
    LockFreeHeap × Bool :=
  if h.size_ ≥ h.capacity then (h, false)
  else
    ({ heap := sift_up pool (h.heap.set h.size_ (some node)) h.size_,
       size_ := h.size_ + 1, capacity := h.capacity }, true)

/-- `LockFreeHeap::pop` (lockfree_heap.hpp lines 78-94), sequential
semantics.  A null top cell makes the C++ loop spin forever; that branch
is unreachable in the states arising in this development, and is embedded
as returning `none`. -/
def LockFreeHeap.pop (pool : List Node) (h : LockFreeHeap) :
    LockFreeHeap × Option Nat :=
  if h.size_ = 0 then (h, none)
  else
    match h.heap.getD 0 none with
    | none => (h, none)
    | some top =>
      let cs := h.size_
      let last := h.heap.getD (cs - 1) none
      let data1 := h.heap.set (cs - 1) none
      let data2 := if cs > 1 then sift_down pool (cs - 1) (data1.set 0 last) 0
        else data1
      (⟨data2, cs - 1, h.capacity⟩, some top)

/-- The first `size_` heap cells (the live portion of the array). -/
def LockFreeHeap.cells (h : LockFreeHeap) : List (Option Nat) :=
  h.heap.take h.size_

/-- Arena indices currently stored in the heap. -/
def LockFreeHeap.contents (h : LockFreeHeap) : List Nat :=
  h.cells.filterMap id

/-! ### Per-key bucket (`midpoint.hpp`, class `MidpointNode`)

A `MidpointNode` is just the wrapped heap; `add_node` is `push`.
`get_highest_priority_node` pops until a live node is found, `delete`-ing
expired nodes.  Each loop iteration reads the clock once inside
`is_expired`; `nowAt i` is the clock value read at iteration `i`.  The
loop is embedded with fuel: called with `fuel = size_`, the fuel and the
size reach zero together (each successful pop decreases `size_` by one),
so the fuel never cuts the loop short. -/

def get_node_loop (pool : List Node) (nowAt : Nat → Nat) :
    Nat → Nat → LockFreeHeap → LockFreeHeap × Option Nat
  | _, 0, h => (h, none)
  | i, fuel + 1, h =>
    if h.size_ = 0 then (h, none)
    else
      match h.pop pool with
      | (h2, none) => (h2, none)
      | (h2, some id) =>
        if (pool.getD id default).is_expired (nowAt i) then
          get_node_loop pool nowAt (i + 1) fuel h2
        else (h2, some id)

/-- `MidpointNode::get_highest_priority_node` (midpoint.hpp lines 15-22). -/
def MidpointNode.get_highest_priority_node (pool : List Node) (nowAt : Nat → Nat)
    (h : LockFreeHeap) : LockFreeHeap × Option Nat :=
  get_node_loop pool nowAt 0 h.size_ h

/-! ### Sharded key index (`lockfree_map.hpp`, class `LockFreeHashTable`)

Sequential semantics: each shard's intrusive list is a Lean list, the head
CAS always succeeds, and `get_or_create`'s fast path always sees the
up-to-date chain — so it installs a new bucket node exactly when the key
is absent.  (The concurrent behaviour of the slow path is modelled
separately in namespace `MapRace`.)  A bucket is addressed by its shard
index and its position in the chain. -/

structure BucketNode where
  key : Key
  value : LockFreeHeap
deriving DecidableEq

instance : Inhabited BucketNode := ⟨⟨[], default⟩⟩

/-- Position of the first chain node whose key equals `key`
(the list traversal of `get` / `get_or_create`'s fast path). -/
def chainFind : List BucketNode → Key → Option Nat
  | [], _ => none
  | bn :: rest, key =>
    if bn.key = key then some 0 else (chainFind rest key).map (· + 1)

/-- `LockFreeHashTable::get_or_create` (lockfree_map.hpp lines 45-61),
sequential semantics: return the existing bucket's position, or install a
fresh empty bucket of capacity `capacity` at the shard head.  Returns the
updated shard array and the bucket's (shard, chain position). -/
def getOrCreate (mids : List (List BucketNode)) (key : Key) (capacity : Nat) :
    List (List BucketNode) × Nat × Nat :=
  let sh := hash key
  let chain := mids.getD sh []
  match chainFind chain key with
  | some ci => (mids, sh, ci)
  | none => (mids.set sh (⟨key, LockFreeHeap.init capacity⟩ :: chain), sh, 0)

/-- Write back the heap of the bucket at (shard `sh`, chain position `ci`)
(the effect of mutating through the `MidpointNode*` the map returned). -/
def setBucketHeap (mids : List (List BucketNode)) (sh ci : Nat)
    (h : LockFreeHeap) : List (List BucketNode) :=
  let chain := mids.getD sh []
  mids.set sh (chain.set ci { chain.getD ci default with value := h })

/-- All live heap cells of one shard chain. -/
def chainCells (chain : List BucketNode) : List (Option Nat) :=
  (chain.map (fun bn => bn.value.cells)).flatten

/-- All live heap cells of the whole key index. -/
def allCells (mids : List (List BucketNode)) : List (Option Nat) :=
  (mids.map chainCells).flatten

/-- `bn` is one of the key index's buckets. -/
def bucketMem (bn : BucketNode) (mids : List (List BucketNode)) : Prop :=
  ∃ chain ∈ mids, bn ∈ chain

/-! ### The cache facade (`radial_circular_list.cpp`, class `RadialCircularList`)

The arena `node_pool` is a list of `max_nodes` records; heap cells hold
indices into it.  The trailing fields (`inserted`, `returned`,
`pushFailed`) are ghost instrumentation: they record, without affecting
any of the C++ fields, which (key, slot, record) triples were pushed,
which slots retrieval has returned, and whether any bucket push has
failed.  They exist only so that trace invariants can be stated. -/

structure RadialCircularList where
  midpoints : List (List BucketNode)
  max_nodes : Nat
  total_nodes : Nat
  node_pool : List Node
  pool_index : Nat
  inserted : List (Key × Nat × Node)
  returned : List Nat
  pushFailed : Bool

/-- `RadialCircularList::RadialCircularList(max)` (radial_circular_list.cpp
lines 3-23): 64 empty shards, `max` pool slots each constructed as
`Node(0.0)` (priority 0, TTL 60 s, timestamp from the clock — `now0`). -/
def RadialCircularList.init (max : Nat) (now0 : Nat) : RadialCircularList :=
  { midpoints := List.replicate 64 []
    max_nodes := max
    total_nodes := 0
    node_pool := List.replicate max ⟨0, 0, now0, 60 * 1000000000⟩
    pool_index := 0
    inserted := []
    returned := []
    pushFailed := false }

/-- `RadialCircularList::insert` (radial_circular_list.cpp lines 40-58).
`now` is the clock value stamped into the record. -/
def RadialCircularList.insert (s : RadialCircularList) (now : Nat) (value : ℚ)
    (midpoint : Key) (priority : Int) (expiry_time : ℚ) :
    RadialCircularList × Bool :=
  if s.total_nodes ≥ s.max_nodes then (s, false)
  else
    let index := s.pool_index
    let s1 := { s with pool_index := s.pool_index + 1 }
    if index ≥ s1.max_nodes then (s1, false)
    else
      let node : Node := ⟨value, priority, now, ttlToNs expiry_time⟩
      let pool1 := s1.node_pool.set index node
      let gc := getOrCreate s1.midpoints midpoint (s1.max_nodes / 10)
      let mids1 := gc.1
      let sh := gc.2.1
      let ci := gc.2.2
      let b := (mids1.getD sh []).getD ci default
      let pr := b.value.push pool1 index
      let h1 := pr.1
      let ok := pr.2
      let s2 := { s1 with node_pool := pool1, midpoints := setBucketHeap mids1 sh ci h1 }
      if ok then
        ({ s2 with total_nodes := s2.total_nodes + 1,
                   inserted := (midpoint, index, node) :: s2.inserted }, true)
      else
        ({ s2 with pushFailed := true }, false)

/-- The body of `insert_batch`'s per-item loop (radial_circular_list.cpp
lines 67-76): write slot `start + i`, `get_or_create` the bucket, push,
and ignore the push's result. -/
def batchLoop (nowAt : Nat → Nat) (start : Nat) :
    RadialCircularList → Nat → List (ℚ × Key × Int × ℚ) → RadialCircularList
  | s, _, [] => s
  | s, i, (value, midpoint, priority, expiry_time) :: rest =>
    let node : Node := ⟨value, priority, nowAt i, ttlToNs expiry_time⟩
    let pool1 := s.node_pool.set (start + i) node
    let gc := getOrCreate s.midpoints midpoint (s.max_nodes / 10)
    let mids1 := gc.1
    let sh := gc.2.1
    let ci := gc.2.2
    let b := (mids1.getD sh []).getD ci default
    let pr := b.value.push pool1 (start + i)
    let h1 := pr.1
    let ok := pr.2
    let s1 := { s with node_pool := pool1, midpoints := setBucketHeap mids1 sh ci h1 }
    let s2 := if ok then { s1 with inserted := (midpoint, start + i, node) :: s1.inserted }
      else { s1 with pushFailed := true }
    batchLoop nowAt start s2 (i + 1) rest

/-- `RadialCircularList::insert_batch` (radial_circular_list.cpp lines
60-79).  `nowAt i` is the clock value stamped into the `i`-th item. -/
def RadialCircularList.insert_batch (s : RadialCircularList) (nowAt : Nat → Nat)
    (batch : List (ℚ × Key × Int × ℚ)) : RadialCircularList × Bool :=
  let batch_size := batch.length
  if s.total_nodes + batch_size > s.max_nodes then (s, false)
  else
    let start := s.pool_index
    let s1 := { s with pool_index := s.pool_index + batch_size }
    if start + batch_size > s1.max_nodes then (s1, false)
    else
      let s2 := batchLoop nowAt start s1 0 batch
      ({ s2 with total_nodes := s2.total_nodes + batch_size }, true)

/-- `RadialCircularList::get_highest_priority` (radial_circular_list.cpp
lines 81-84).  Returns the updated cache and the popped live record, as
the slot index paired with the record it holds (the caller of the C++
function reads the record through the returned `Node*`). -/
def RadialCircularList.get_highest_priority (s : RadialCircularList)
    (nowAt : Nat → Nat) (midpoint : Key) :
    RadialCircularList × Option (Nat × Node) :=
  let sh := hash midpoint
  let chain := s.midpoints.getD sh []
  match chainFind chain midpoint with
  | none => (s, none)
  | some ci =>
    let b := chain.getD ci default
    let gr := MidpointNode.get_highest_priority_node s.node_pool nowAt b.value
    let h1 := gr.1
    let res := gr.2
    let s1 := { s with midpoints := setBucketHeap s.midpoints sh ci h1 }
    match res with
    | none => (s1, none)
    | some id =>
      ({ s1 with returned := id :: s1.returned },
       some (id, s.node_pool.getD id default))

/-! ### Single-threaded traces -/

/-- One sequential API call, with the clock values its clock reads return. -/
inductive Op where
  | ins (now : Nat) (value : ℚ) (midpoint : Key) (priority : Int) (expiry_time : ℚ)
  | insB (nowAt : Nat → Nat) (batch : List (ℚ × Key × Int × ℚ))
  | getHP (nowAt : Nat → Nat) (midpoint : Key)

def RadialCircularList.step (s : RadialCircularList) : Op → RadialCircularList
  | .ins now v k p e => (s.insert now v k p e).1
  | .insB nowAt b => (s.insert_batch nowAt b).1
  | .getHP nowAt k => (s.get_highest_priority nowAt k).1

def RadialCircularList.run (s : RadialCircularList) (ops : List Op) :
    RadialCircularList :=
  ops.foldl RadialCircularList.step s

/-- Run a sequence of `insert` calls, collecting their boolean results. -/
def runInserts : RadialCircularList → List (Nat × ℚ × Key × Int × ℚ) →
    RadialCircularList × List Bool
  | s, [] => (s, [])
  | s, (now, v, k, p, e) :: rest =>
    let step1 := s.insert now v k p e
    let rest1 := runInserts step1.1 rest
    (rest1.1, step1.2 :: rest1.2)

/-- Run a sequence of `get_highest_priority` calls, collecting their
results. -/
def runGets : RadialCircularList → List ((Nat → Nat) × Key) →
    RadialCircularList × List (Option (Nat × Node))
  | s, [] => (s, [])
  | s, (nowAt, k) :: rest =>
    let step1 := s.get_highest_priority nowAt k
    let rest1 := runGets step1.1 rest
    (rest1.1, step1.2 :: rest1.2)

/-- The byte sequence of the string "AAPL". -/
def keyAAPL : Key := [65, 65, 80, 76]

/-- The double literal `100.5` (exactly representable; equals 201/2). -/
def val100_5 : ℚ := Rat.mk' 201 2 (by decide) (by decide)

/-- One iteration of 64-bit FNV-1a as the spec states it ("for each byte
`b`, `h` becomes `(h XOR b) * 0x100000001b3` modulo `2^64`"): the byte is
XORed in unchanged, with no sign extension.  Stated from the spec's
words, for comparison with the source-embedded `hashStep`. -/
def fnv1aSpecStep (h b : Nat) : Nat := ((h ^^^ b) * FNV_PRIME) % U64MOD

/-- 64-bit FNV-1a over a byte sequence, as the spec states it. -/
def fnv1aSpec (key : Key) : Nat := key.foldl fnv1aSpecStep FNV_OFFSET

/-! ### The `get_or_create` race (`lockfree_map.hpp` lines 45-61), modelled
concurrently

Two threads run `get_or_create` on the same shard chain for the same key.
Each `BucketNode` allocation is identified by a numeric id (its address);
the chain is the shard's list, newest first.  A thread's program is:

* *fast path* — traverse the chain; if a node with the key is found,
  return it (`done`), else allocate a new node and enter the retry loop
  (`atLoop`);
* *retry loop* — load the head pointer (`atCAS snap`), point the new
  node's `next` at it, and CAS the shard head: on success prepend the new
  node and return it, on failure go back to loading the head.  The source
  re-checks neither the chain nor the key after a failed CAS.

The fast-path traversal and each head load/CAS are modelled as atomic;
the interleavings of this model are a subset of the C++ ones. -/

namespace MapRace

structure ChainNode where
  id : Nat
  key : Key
deriving DecidableEq

/-- The id of the first chain node carrying `key`, as the fast-path
traversal finds it. -/
def findNode (chain : List ChainNode) (key : Key) : Option Nat :=
  (chain.find? (fun n => n.key = key)).map ChainNode.id

/-- The shard's head pointer: the id of the newest chain node. -/
def headId (chain : List ChainNode) : Option Nat :=
  chain.head?.map ChainNode.id

/-- Local state of one thread inside `get_or_create`. -/
inductive TState where
  | start
  | atLoop
  | atCAS (snap : Option Nat)
  | done (result : Nat)
deriving DecidableEq

/-- One atomic step of a thread with key `k` whose allocated node has id
`a`, acting on the shared chain (lockfree_map.hpp lines 45-61). -/
inductive TStep (k : Key) (a : Nat) :
    List ChainNode → TState → List ChainNode → TState → Prop where
  | fastFound (chain : List ChainNode) (n : Nat) (h : findNode chain k = some n) :
      TStep k a chain .start chain (.done n)
  | fastMiss (chain : List ChainNode) (h : findNode chain k = none) :
      TStep k a chain .start chain .atLoop
  | load (chain : List ChainNode) :
      TStep k a chain .atLoop chain (.atCAS (headId chain))
  | casOk (chain : List ChainNode) (snap : Option Nat) (h : headId chain = snap) :
      TStep k a chain (.atCAS snap) (⟨a, k⟩ :: chain) (.done a)
  | casFail (chain : List ChainNode) (snap : Option Nat) (h : headId chain ≠ snap) :
      TStep k a chain (.atCAS snap) chain .atLoop

/-- Shared chain plus the local states of two threads, both calling
`get_or_create` with the same key `k`; thread 1's allocation has id 1,
thread 2's has id 2. -/
structure Config where
  chain : List ChainNode
  t1 : TState
  t2 : TState
deriving DecidableEq

/-- Interleaving: either thread takes its next step. -/
inductive Step (k : Key) : Config → Config → Prop where
  | thread1 {c : Config} {chain' : List ChainNode} {st' : TState}
      (h : TStep k 1 c.chain c.t1 chain' st') :
      Step k c ⟨chain', st', c.t2⟩
  | thread2 {c : Config} {chain' : List ChainNode} {st' : TState}
      (h : TStep k 2 c.chain c.t2 chain' st') :
      Step k c ⟨chain', c.t1, st'⟩

/-- Both threads start at the fast path on an initially empty shard chain. -/
def init : Config := ⟨[], .start, .start⟩

/-- Configurations an execution can reach. -/
def Reachable (k : Key) (c : Config) : Prop :=
  Relation.ReflTransGen (Step k) init c

end MapRace

/-! ## List bookkeeping lemmas

Multiset reasoning for the heap: the sift loops only swap cells inside the
live prefix, so the prefix's multiset of cells is preserved. -/

theorem getD_take_of_lt {α : Type} {l : List α} {n i : Nat} (h : i < n) (d : α) :
    (l.take n).getD i d = l.getD i d := by
  simp [List.getD_eq_getElem?_getD, List.getElem?_take_of_lt h]

theorem getD_mem {α : Type} {l : List α} {i : Nat} (h : i < l.length) (d : α) :
    l.getD i d ∈ l := by
  rw [List.getD_eq_getElem?_getD, List.getElem?_eq_getElem h]
  exact List.getElem_mem h

theorem getD_set_self {α : Type} {l : List α} {i : Nat} (h : i < l.length)
    (x d : α) : (l.set i x).getD i d = x := by
  rw [List.getD_eq_getElem?_getD, List.getElem?_set_self h]
  rfl

theorem getD_set_ne {α : Type} {l : List α} {i j : Nat} (h : i ≠ j) (x d : α) :
    (l.set i x).getD j d = l.getD j d := by
  rw [List.getD_eq_getElem?_getD, List.getElem?_set_ne h,
    ← List.getD_eq_getElem?_getD]

theorem take_set_of_le {α : Type} {l : List α} {n i : Nat} (h : n ≤ i) (x : α) :
    (l.set i x).take n = l.take n := by
  rw [List.set_take]
  exact List.set_eq_of_length_le (le_trans (List.length_take_le _ _) h)

theorem set_cons_perm {α : Type} (d : α) :
    ∀ (t : List α) (j : Nat) (a : α), j < t.length →
      (t.getD j d) :: (t.set j a) ~ a :: t := by
  intro t
  induction t with
  | nil => intro j a h; simp at h
  | cons b t2 ih =>
    intro j a h
    cases j with
    | zero => simpa using List.Perm.swap a b t2
    | succ k =>
      have hk : k < t2.length := by simpa using h
      calc t2.getD k d :: b :: t2.set k a
          ~ b :: t2.getD k d :: t2.set k a := List.Perm.swap b (t2.getD k d) _
        _ ~ b :: a :: t2 := List.Perm.cons b (ih k a hk)
        _ ~ a :: b :: t2 := List.Perm.swap a b t2

theorem swap_set_perm {α : Type} (d : α) :
    ∀ (l : List α) (i j : Nat), i < j → j < l.length →
      ((l.set i (l.getD j d)).set j (l.getD i d)) ~ l := by
  intro l
  induction l with
  | nil => intro i j _ h; simp at h
  | cons a t ih =>
    intro i j hij hj
    cases i with
    | zero =>
      obtain ⟨k, rfl⟩ : ∃ k, j = k + 1 := ⟨j - 1, by omega⟩
      have hk : k < t.length := by simpa using hj
      simpa using set_cons_perm d t k a hk
    | succ ii =>
      obtain ⟨jj, rfl⟩ : ∃ jj, j = jj + 1 := ⟨j - 1, by omega⟩
      have hjj : jj < t.length := by simpa using hj
      simpa using List.Perm.cons a (ih ii jj (by omega) hjj)

theorem swap_set_perm' {α : Type} (d : α) (l : List α) (i j : Nat) (hne : i ≠ j)
    (hi : i < l.length) (hj : j < l.length) :
    ((l.set i (l.getD j d)).set j (l.getD i d)) ~ l := by
  rcases Nat.lt_or_ge i j with h | h
  · exact swap_set_perm d l i j h hj
  · rw [List.set_comm _ _ _ hne]
    exact swap_set_perm d l j i (by omega) hi

theorem swap_take_perm {α : Type} (d : α) {l : List α} {i j n : Nat} (hne : i ≠ j)
    (hi : i < n) (hj : j < n) (hn : n ≤ l.length) :
    ((l.set i (l.getD j d)).set j (l.getD i d)).take n ~ l.take n := by
  rw [List.set_take, List.set_take, ← getD_take_of_lt hj d, ← getD_take_of_lt hi d]
  have hlen : i < (l.take n).length ∧ j < (l.take n).length := by
    constructor <;> simp [List.length_take] <;> omega
  exact swap_set_perm' d (l.take n) i j hne hlen.1 hlen.2

theorem set_append_last {α : Type} (A : List α) (b x : α) :
    (A ++ [b]).set A.length x = A ++ [x] := by
  induction A with
  | nil => rfl
  | cons a A ih => simp [ih]

theorem take_succ_set {α : Type} {l : List α} {n : Nat} (h : n < l.length) (x : α) :
    (l.set n x).take (n + 1) = l.take n ++ [x] := by
  rw [List.set_take, List.take_succ, List.getElem?_eq_getElem h]
  have hlen : (l.take n).length = n := by
    simp [List.length_take]; omega
  calc (l.take n ++ (some l[n]).toList).set n x
      = (l.take n ++ [l[n]]).set (l.take n).length x := by rw [hlen]; rfl
    _ = l.take n ++ [x] := set_append_last _ _ _

theorem join_map_set {α β : Type} (f : α → List β) (d : α) :
    ∀ (l : List α) (i : Nat) (x : α), i < l.length →
      ∃ pre post : List β,
        (l.map f).flatten = pre ++ (f (l.getD i d) ++ post) ∧
        ((l.set i x).map f).flatten = pre ++ (f x ++ post) := by
  intro l
  induction l with
  | nil => intro i x h; simp at h
  | cons a t ih =>
    intro i x h
    cases i with
    | zero => exact ⟨[], (t.map f).flatten, by simp, by simp⟩
    | succ i =>
      obtain ⟨pre, post, h1, h2⟩ := ih i x (by simpa using h)
      refine ⟨f a ++ pre, post, ?_, ?_⟩
      · simp only [List.map_cons, List.flatten_cons, h1, List.append_assoc,
          List.getD_cons_succ]
      · simp only [List.set_cons_succ, List.map_cons, List.flatten_cons, h2,
          List.append_assoc]

/-! ## Sift loops preserve the live prefix's multiset -/

theorem sift_up_go_take_perm (pool : List Node) :
    ∀ (fuel : Nat) (data : List (Option Nat)) (index n : Nat),
      index < n → index ≤ fuel → n ≤ data.length →
      (sift_up_go pool fuel data index).take n ~ data.take n ∧
        (sift_up_go pool fuel data index).length = data.length := by
  intro fuel
  induction fuel with
  | zero =>
    intro data index n _ h2 _
    have : index = 0 := by omega
    subst this
    exact ⟨.refl _, by trivial⟩
  | succ fuel ih =>
    intro data index n h1 h2 h3
    match index, h1, h2 with
    | 0, _, _ => exact ⟨.refl _, by trivial⟩
    | idx + 1, h1, h2 =>
      simp only [sift_up_go]
      cases hc : data.getD (idx + 1) none with
      | none => exact ⟨.refl _, by trivial⟩
      | some child =>
        cases hp : data.getD (idx / 2) none with
        | none => exact ⟨.refl _, by trivial⟩
        | some parent_node =>
          by_cases hcmp : prioAt pool parent_node ≥ prioAt pool child
          · simp only [if_pos hcmp]
            exact ⟨.refl _, by trivial⟩
          · simp only [if_neg hcmp]
            have hswap : ((data.set (idx / 2) (some child)).set (idx + 1)
                (some parent_node)).take n ~ data.take n := by
              rw [← hc, ← hp]
              exact swap_take_perm none (by omega) (by omega) h1 h3
            have hlen : ((data.set (idx / 2) (some child)).set (idx + 1)
                (some parent_node)).length = data.length := by simp
            obtain ⟨hperm, hlen2⟩ := ih ((data.set (idx / 2) (some child)).set (idx + 1)
                (some parent_node)) (idx / 2) n (by omega) (by omega) (by omega)
            exact ⟨hperm.trans hswap, by rw [hlen2, hlen]⟩

theorem sift_down_go_take_perm (pool : List Node) (current_size : Nat) :
    ∀ (fuel : Nat) (data : List (Option Nat)) (index n : Nat),
      current_size ≤ n → n ≤ data.length →
      (sift_down_go pool current_size fuel data index).take n ~ data.take n ∧
        (sift_down_go pool current_size fuel data index).length = data.length := by
  intro fuel
  induction fuel with
  | zero => intro data index n _ _; exact ⟨.refl _, by trivial⟩
  | succ fuel ih =>
    intro data index n h1 h2
    simp only [sift_down_go]
    by_cases heq : siftTarget pool current_size data index = index
    · simp only [if_pos heq]
      exact ⟨.refl _, by trivial⟩
    · simp only [if_neg heq]
      obtain ⟨hlt1, hlt2⟩ := siftTarget_bounds heq
      set m2 := siftTarget pool current_size data index with hm2
      have hswap : ((data.set index (data.getD m2 none)).set m2
          (data.getD index none)).take n ~ data.take n :=
        swap_take_perm none (by omega) (by omega) (by omega) h2
      have hlen : ((data.set index (data.getD m2 none)).set m2
          (data.getD index none)).length = data.length := by simp
      obtain ⟨hperm, hlen2⟩ := ih ((data.set index (data.getD m2 none)).set m2
          (data.getD index none)) m2 n h1 (by omega)
      exact ⟨hperm.trans hswap, by rw [hlen2, hlen]⟩

/-! ## Heap operations: effect on the live cell prefix -/

theorem push_characterize (pool : List Node) (h : LockFreeHeap) (id : Nat)
    (hlen : h.heap.length = h.capacity) :
    (h.push pool id = (h, false) ∧ h.size_ ≥ h.capacity) ∨
    ((h.push pool id).2 = true ∧
      (h.push pool id).1.size_ = h.size_ + 1 ∧
      (h.push pool id).1.capacity = h.capacity ∧
      (h.push pool id).1.heap.length = h.capacity ∧
      h.size_ < h.capacity ∧
      (h.push pool id).1.cells ~ some id :: h.cells) := by
  unfold LockFreeHeap.push
  by_cases hge : h.size_ ≥ h.capacity
  · exact Or.inl ⟨by simp [hge], hge⟩
  · have hlt : h.size_ < h.capacity := by omega
    simp only [if_neg hge]
    refine Or.inr ⟨by trivial, by trivial, by trivial, ?_, hlt, ?_⟩
    · have := sift_up_go_take_perm pool h.size_ (h.heap.set h.size_ (some id))
        h.size_ (h.size_ + 1) (by omega) (by omega) (by simp [hlen]; omega)
      simpa [sift_up] using this.2.trans (by simp [hlen])
    · show (sift_up pool (h.heap.set h.size_ (some id)) h.size_).take (h.size_ + 1)
        ~ some id :: h.cells
      obtain ⟨hperm, _⟩ := sift_up_go_take_perm pool h.size_
        (h.heap.set h.size_ (some id)) h.size_ (h.size_ + 1) (by omega) (by omega)
        (by simp [hlen]; omega)
      have heq : (h.heap.set h.size_ (some id)).take (h.size_ + 1)
          = h.heap.take h.size_ ++ [some id] :=
        take_succ_set (by omega) _
      calc (sift_up pool (h.heap.set h.size_ (some id)) h.size_).take (h.size_ + 1)
          ~ h.heap.take h.size_ ++ [some id] := heq ▸ hperm
        _ ~ some id :: h.cells := List.perm_append_singleton _ _

theorem pop_characterize (pool : List Node) (h : LockFreeHeap)
    (hlen : h.heap.length = h.capacity) (hsz : h.size_ ≤ h.capacity) :
    (h.pop pool = (h, none)) ∨
    (∃ top, (h.pop pool).2 = some top ∧
      (h.pop pool).1.size_ = h.size_ - 1 ∧
      (h.pop pool).1.capacity = h.capacity ∧
      (h.pop pool).1.heap.length = h.capacity ∧
      some top :: (h.pop pool).1.cells ~ h.cells) := by
  unfold LockFreeHeap.pop
  by_cases h0 : h.size_ = 0
  · exact Or.inl (by simp [h0])
  · simp only [if_neg h0]
    cases htop : h.heap.getD 0 none with
    | none => exact Or.inl rfl
    | some top =>
      refine Or.inr ⟨top, rfl, rfl, rfl, ?_, ?_⟩
      · -- length of the resulting cell array
        by_cases h1 : h.size_ > 1
        · simp only [if_pos h1]
          have := sift_down_go_take_perm pool (h.size_ - 1) (h.size_ - 1)
            (((h.heap.set (h.size_ - 1) none).set 0 (h.heap.getD (h.size_ - 1) none)))
            0 (h.size_ - 1) (le_refl _) (by simp [hlen]; omega)
          simpa [sift_down] using this.2.trans (by simp [hlen])
        · simp only [if_neg h1]
          simp [hlen]
      · -- the popped cell plus the new prefix is a permutation of the old prefix
        by_cases h1 : h.size_ > 1
        · simp only [if_pos h1]
          set cs := h.size_ with hcs
          set last := h.heap.getD (cs - 1) none with hlast
          obtain ⟨hperm, _⟩ := sift_down_go_take_perm pool (cs - 1) (cs - 1)
            ((h.heap.set (cs - 1) none).set 0 last) 0 (cs - 1)
            (le_refl _) (by simp [hlen]; omega)
          have e1 : ((h.heap.set (cs - 1) none).set 0 last).take (cs - 1)
              = ((h.heap.set (cs - 1) none).take (cs - 1)).set 0 last :=
            List.set_take
          have e2 : (h.heap.set (cs - 1) none).take (cs - 1)
              = h.heap.take (cs - 1) := take_set_of_le (le_refl _) _
          set A := h.heap.take (cs - 1) with hA
          have hAlen : A.length = cs - 1 := by
            simp [hA, List.length_take]; omega
          have hA0 : A.getD 0 none = some top := by
            rw [hA, getD_take_of_lt (by omega)]; exact htop
          have hcells : h.cells = A ++ [last] := by
            show h.heap.take h.size_ = A ++ [last]
            have : h.size_ = (cs - 1) + 1 := by omega
            rw [this, List.take_succ, hA, hlast]
            have hlt : cs - 1 < h.heap.length := by omega
            simp [List.getElem?_eq_getElem hlt, List.getD_eq_getElem?_getD,
              List.getElem?_eq_getElem hlt]
          have hstep : some top :: A.set 0 last ~ last :: A := by
            have := set_cons_perm none A 0 last (by omega)
            rwa [hA0] at this
          calc some top :: (sift_down pool (cs - 1)
                ((h.heap.set (cs - 1) none).set 0 last) 0).take (cs - 1)
              ~ some top :: A.set 0 last := by
                refine List.Perm.cons _ ?_
                rw [sift_down] at *
                exact hperm.trans (by rw [e1, e2])
            _ ~ last :: A := hstep
            _ ~ A ++ [last] := (List.perm_append_singleton _ _).symm
            _ ~ h.cells := hcells ▸ .refl _
        · -- size exactly 1: the heap empties
          simp only [if_neg h1]
          have hcs : h.size_ = 1 := by omega
          have hcells : h.cells = [some top] := by
            show h.heap.take h.size_ = [some top]
            rw [hcs]
            cases hh : h.heap with
            | nil => rw [hh] at hlen; simp at hlen; omega
            | cons c t =>
              have hc : c = some top := by rw [hh] at htop; simpa using htop
              simp [hc]
          have h10 : h.size_ - 1 = 0 := by omega
          show some top :: (h.heap.set (h.size_ - 1) none).take (h.size_ - 1) ~ h.cells
          rw [h10, List.take_zero, hcells]

/-- The retrieval loop only removes cells from the bucket; a returned id
was one of the removed cells and passed its expiry check. -/
theorem get_node_loop_spec (pool : List Node) (nowAt : Nat → Nat) :
    ∀ (fuel i : Nat) (h : LockFreeHeap),
      h.heap.length = h.capacity → h.size_ ≤ h.capacity →
      ((get_node_loop pool nowAt i fuel h).1.heap.length
          = (get_node_loop pool nowAt i fuel h).1.capacity ∧
        (get_node_loop pool nowAt i fuel h).1.size_
          ≤ (get_node_loop pool nowAt i fuel h).1.capacity ∧
        (get_node_loop pool nowAt i fuel h).1.capacity = h.capacity) ∧
      ∃ dropped, h.cells ~ dropped ++ (get_node_loop pool nowAt i fuel h).1.cells ∧
        ∀ id, (get_node_loop pool nowAt i fuel h).2 = some id →
          some id ∈ dropped ∧
          ∃ j, (pool.getD id default).is_expired (nowAt j) = false := by
  intro fuel
  induction fuel with
  | zero =>
    intro i h hlen hsz
    exact ⟨⟨hlen, hsz, by trivial⟩, [], .refl _, by intro id hid; cases hid⟩
  | succ fuel ih =>
    intro i h hlen hsz
    simp only [get_node_loop]
    by_cases h0 : h.size_ = 0
    · simp only [if_pos h0]
      exact ⟨⟨hlen, hsz, by trivial⟩, [], .refl _, by intro id hid; cases hid⟩
    · simp only [if_neg h0]
      rcases pop_characterize pool h hlen hsz with hp | ⟨top, htop, hsz2, hcap2, hlen2, hperm⟩
      · rw [hp]
        exact ⟨⟨hlen, hsz, by trivial⟩, [], .refl _, by intro id hid; cases hid⟩
      · rcases hpop : h.pop pool with ⟨h2, rtop⟩
        rw [hpop] at htop hsz2 hcap2 hlen2 hperm
        dsimp only at htop hsz2 hcap2 hlen2 hperm
        subst htop
        dsimp only
        by_cases hexp : (pool.getD top default).is_expired (nowAt i) = true
        · simp only [if_pos hexp]
          obtain ⟨⟨l1, l2, l3⟩, dropped2, hperm2, hres⟩ :=
            ih (i + 1) h2 (by rw [hlen2, hcap2]) (by rw [hcap2]; omega)
          refine ⟨⟨l1, l2, by rw [l3, hcap2]⟩, some top :: dropped2, ?_, ?_⟩
          · calc h.cells ~ some top :: h2.cells := hperm.symm
              _ ~ some top :: (dropped2 ++ _) := List.Perm.cons _ hperm2
          · intro id hid
            obtain ⟨hmem, hj⟩ := hres id hid
            exact ⟨List.mem_cons_of_mem _ hmem, hj⟩
        · simp only [if_neg hexp]
          refine ⟨⟨by rw [hlen2, hcap2], by rw [hcap2]; omega, hcap2⟩,
            [some top], hperm.symm, ?_⟩
          intro id hid
          cases hid
          have hfalse : (pool.getD top default).is_expired (nowAt i) = false := by
            simpa using hexp
          exact ⟨List.mem_singleton_self _, i, hfalse⟩

/-! ## Key index bookkeeping -/

theorem init_cells (cap : Nat) : (LockFreeHeap.init cap).cells = [] := by
  simp [LockFreeHeap.init, LockFreeHeap.cells]

theorem chainFind_spec : ∀ (chain : List BucketNode) (k : Key) (ci : Nat),
    chainFind chain k = some ci →
      ci < chain.length ∧ (chain.getD ci default).key = k := by
  intro chain
  induction chain with
  | nil => intro k ci h; cases h
  | cons bn rest ih =>
    intro k ci h
    by_cases hk : bn.key = k
    · rw [chainFind, if_pos hk] at h
      cases h
      exact ⟨by simp, hk⟩
    · rw [chainFind, if_neg hk] at h
      cases hrk : chainFind rest k with
      | none => rw [hrk] at h; cases h
      | some cj =>
        rw [hrk] at h
        cases h
        obtain ⟨hlt, hkey⟩ := ih k cj hrk
        exact ⟨by simp; omega, by simpa using hkey⟩

theorem allCells_update (mids : List (List BucketNode)) (sh ci : Nat)
    (hsh : sh < mids.length) (hci : ci < (mids.getD sh []).length)
    (hNew : LockFreeHeap) :
    ∃ pre post,
      allCells mids
        = pre ++ (((mids.getD sh []).getD ci default).value.cells ++ post) ∧
      allCells (setBucketHeap mids sh ci hNew) = pre ++ (hNew.cells ++ post) := by
  obtain ⟨P2, Q2, i1, i2⟩ := join_map_set (fun bn => bn.value.cells) default
    (mids.getD sh []) ci { (mids.getD sh []).getD ci default with value := hNew } hci
  obtain ⟨P1, Q1, o1, o2⟩ := join_map_set chainCells ([] : List BucketNode)
    mids sh ((mids.getD sh []).set ci
      { (mids.getD sh []).getD ci default with value := hNew }) hsh
  refine ⟨P1 ++ P2, Q2 ++ Q1, ?_, ?_⟩
  · show (mids.map chainCells).flatten = _
    rw [o1, show chainCells (mids.getD sh []) = P2 ++
      (((mids.getD sh []).getD ci default).value.cells ++ Q2) from i1]
    simp [List.append_assoc]
  · show ((setBucketHeap mids sh ci hNew).map chainCells).flatten = _
    unfold setBucketHeap
    rw [o2, show chainCells ((mids.getD sh []).set ci
      { (mids.getD sh []).getD ci default with value := hNew })
      = P2 ++ (hNew.cells ++ Q2) from i2]
    simp [List.append_assoc]

theorem setBucketHeap_mem (mids : List (List BucketNode)) (sh ci : Nat)
    (hNew : LockFreeHeap) (bn : BucketNode)
    (h : bucketMem bn (setBucketHeap mids sh ci hNew)) :
    bucketMem bn mids ∨
      bn = { (mids.getD sh []).getD ci default with value := hNew } := by
  obtain ⟨chain, hchain, hbn⟩ := h
  unfold setBucketHeap at hchain
  rcases List.mem_or_eq_of_mem_set hchain with hc | hc
  · exact Or.inl ⟨chain, hc, hbn⟩
  · subst hc
    rcases List.mem_or_eq_of_mem_set hbn with hb | hb
    · by_cases hsh : sh < mids.length
      · exact Or.inl ⟨mids.getD sh [], getD_mem hsh [], hb⟩
      · rw [List.getD_eq_getElem?_getD, List.getElem?_eq_none (by omega)] at hb
        simp at hb
    · exact Or.inr hb

theorem getOrCreate_spec (mids : List (List BucketNode)) (k : Key) (cap : Nat)
    (hlen : mids.length = 64) :
    (getOrCreate mids k cap).1.length = 64 ∧
    (getOrCreate mids k cap).2.1 < (getOrCreate mids k cap).1.length ∧
    (getOrCreate mids k cap).2.2
      < ((getOrCreate mids k cap).1.getD (getOrCreate mids k cap).2.1 []).length ∧
    (((getOrCreate mids k cap).1.getD (getOrCreate mids k cap).2.1 []).getD
      (getOrCreate mids k cap).2.2 default).key = k ∧
    allCells (getOrCreate mids k cap).1 = allCells mids ∧
    (∀ bn, bucketMem bn (getOrCreate mids k cap).1 →
      bucketMem bn mids ∨ bn = ⟨k, LockFreeHeap.init cap⟩) ∧
    (bucketMem (((getOrCreate mids k cap).1.getD (getOrCreate mids k cap).2.1
        []).getD (getOrCreate mids k cap).2.2 default) mids ∨
      ((getOrCreate mids k cap).1.getD (getOrCreate mids k cap).2.1 []).getD
        (getOrCreate mids k cap).2.2 default = ⟨k, LockFreeHeap.init cap⟩) := by
  have hshlt : hash k < 64 := Nat.mod_lt _ (by decide)
  cases hf : chainFind (mids.getD (hash k) []) k with
  | some ci =>
    obtain ⟨hci, hkey⟩ := chainFind_spec _ _ _ hf
    simp only [getOrCreate, hf]
    have hmem : (mids.getD (hash k) []).getD ci default ∈ mids.getD (hash k) [] :=
      getD_mem hci default
    have hchain : mids.getD (hash k) [] ∈ mids := getD_mem (by omega) []
    exact ⟨hlen, by omega, hci, hkey, by trivial, fun bn hbn => Or.inl hbn,
      Or.inl ⟨_, hchain, hmem⟩⟩
  | none =>
    simp only [getOrCreate, hf]
    obtain ⟨P1, Q1, o1, o2⟩ := join_map_set chainCells ([] : List BucketNode)
      mids (hash k) (⟨k, LockFreeHeap.init cap⟩ :: mids.getD (hash k) [])
      (by omega)
    have hgd : ((mids.set (hash k)
        (⟨k, LockFreeHeap.init cap⟩ :: mids.getD (hash k) [])).getD (hash k) [])
        = ⟨k, LockFreeHeap.init cap⟩ :: mids.getD (hash k) [] :=
      getD_set_self (by omega) _ _
    refine ⟨by simpa using hlen, ?_, ?_, ?_, ?_, ?_, ?_⟩
    · simpa [hlen] using hshlt
    · rw [hgd]; simp
    · rw [hgd]; rfl
    · show allCells _ = allCells mids
      unfold allCells
      rw [o2, o1]
      have hcc : chainCells (⟨k, LockFreeHeap.init cap⟩ :: mids.getD (hash k) [])
          = chainCells (mids.getD (hash k) []) := by
        unfold chainCells
        simp [init_cells]
      rw [hcc]
    · intro bn hbn
      obtain ⟨chain, hchain, hbnc⟩ := hbn
      rcases List.mem_or_eq_of_mem_set hchain with hc | hc
      · exact Or.inl ⟨chain, hc, hbnc⟩
      · subst hc
        rcases List.mem_cons.1 hbnc with hb | hb
        · exact Or.inr hb
        · exact Or.inl ⟨mids.getD (hash k) [], getD_mem (by omega) [], hb⟩
    · rw [hgd]
      exact Or.inr rfl

/-! ## The sequential trace invariant -/

theorem count_perm {l1 l2 : List (Option Nat)} (h : l1 ~ l2) (x : Option Nat) :
    l1.count x = l2.count x := by
  induction h with
  | nil => rfl
  | cons a _ ih => simp [List.count_cons, ih]
  | swap a b l => simp [List.count_cons]; omega
  | trans _ _ ih1 ih2 => exact ih1.trans ih2

theorem mem_allCells_of_bucket {bn : BucketNode} {mids : List (List BucketNode)}
    (hbn : bucketMem bn mids) {c : Option Nat} (hc : c ∈ bn.value.cells) :
    c ∈ allCells mids := by
  obtain ⟨chain, hchain, hmem⟩ := hbn
  unfold allCells
  rw [List.mem_flatten]
  refine ⟨chainCells chain, List.mem_map_of_mem _ hchain, ?_⟩
  unfold chainCells
  rw [List.mem_flatten]
  exact ⟨bn.value.cells, List.mem_map_of_mem _ hmem, hc⟩

/-- The ghost-state invariant over the data components of the cache:
`bnd` bounds every arena index reachable through a heap cell, the ghost
`inserted` list, or the ghost `returned` list; `maxn` is the arena
length. -/
structure InvCore (pool : List Node) (mids : List (List BucketNode))
    (inserted : List (Key × Nat × Node)) (returned : List Nat)
    (bnd maxn : Nat) : Prop where
  pool_len : pool.length = maxn
  mids_len : mids.length = 64
  heap_wf : ∀ bn, bucketMem bn mids →
    bn.value.heap.length = bn.value.capacity ∧ bn.value.size_ ≤ bn.value.capacity
  ins_lt : ∀ e ∈ inserted, e.2.1 < bnd
  ins_pool : ∀ e ∈ inserted, pool.getD e.2.1 default = e.2.2
  cells_ins : ∀ bn, bucketMem bn mids → ∀ id, some id ∈ bn.value.cells →
    ∃ r, (bn.key, id, r) ∈ inserted
  uniq : ∀ id, (allCells mids).count (some id) + returned.count id ≤ 1
  cells_lt : ∀ id, some id ∈ allCells mids → id < bnd
  ret_lt : ∀ id ∈ returned, id < bnd

/-- The full invariant of reachable cache states. -/
def Inv (s : RadialCircularList) : Prop :=
  InvCore s.node_pool s.midpoints s.inserted s.returned s.pool_index s.max_nodes ∧
  (s.pushFailed = false →
    s.pool_index = s.total_nodes ∧ s.total_nodes ≤ s.max_nodes)

theorem InvCore.mono {pool mids inserted returned bnd maxn}
    (h : InvCore pool mids inserted returned bnd maxn) {bnd' : Nat}
    (hb : bnd ≤ bnd') : InvCore pool mids inserted returned bnd' maxn where
  pool_len := h.pool_len
  mids_len := h.mids_len
  heap_wf := h.heap_wf
  ins_lt := fun e he => lt_of_lt_of_le (h.ins_lt e he) hb
  ins_pool := h.ins_pool
  cells_ins := h.cells_ins
  uniq := h.uniq
  cells_lt := fun id hid => lt_of_lt_of_le (h.cells_lt id hid) hb
  ret_lt := fun id hid => lt_of_lt_of_le (h.ret_lt id hid) hb

theorem Inv_init (max now0 : Nat) : Inv (RadialCircularList.init max now0) := by
  refine ⟨?_, fun _ => ⟨rfl, by simp [RadialCircularList.init]⟩⟩
  have hmids : ∀ bn, bucketMem bn (List.replicate 64 ([] : List BucketNode)) →
      False := by
    intro bn ⟨chain, hchain, hbn⟩
    rw [List.eq_of_mem_replicate hchain] at hbn
    cases hbn
  have hcells : allCells (List.replicate 64 ([] : List BucketNode)) = [] := rfl
  exact {
    pool_len := by simp [RadialCircularList.init]
    mids_len := by simp [RadialCircularList.init]
    heap_wf := fun bn hbn => absurd hbn (hmids bn)
    ins_lt := by intro e he; cases he
    ins_pool := by intro e he; cases he
    cells_ins := fun bn hbn => absurd hbn (hmids bn)
    uniq := by intro id; rw [show (RadialCircularList.init max now0).midpoints
      = List.replicate 64 [] from rfl, hcells]; simp [RadialCircularList.init]
    cells_lt := by intro id hid; rw [show (RadialCircularList.init max now0).midpoints
      = List.replicate 64 [] from rfl, hcells] at hid; cases hid
    ret_lt := by intro id hid; cases hid }

/-- The common "write the slot, find-or-create the bucket, push, write the
heap back" block shared by `insert` and `insert_batch`'s loop, acting on a
fresh arena index `idx` (every id already reachable is `< idx`). -/
theorem push_block (pool : List Node) (mids : List (List BucketNode))
    (inserted : List (Key × Nat × Node)) (returned : List Nat) (maxn : Nat)
    (node : Node) (k : Key) (idx : Nat) (cap : Nat)
    (hc : InvCore pool mids inserted returned idx maxn) (hidx : idx < maxn) :
    InvCore (pool.set idx node)
      (setBucketHeap (getOrCreate mids k cap).1 (getOrCreate mids k cap).2.1
        (getOrCreate mids k cap).2.2
        ((((getOrCreate mids k cap).1.getD (getOrCreate mids k cap).2.1 []).getD
          (getOrCreate mids k cap).2.2 default).value.push (pool.set idx node) idx).1)
      (if ((((getOrCreate mids k cap).1.getD (getOrCreate mids k cap).2.1 []).getD
          (getOrCreate mids k cap).2.2 default).value.push (pool.set idx node) idx).2
        then (k, idx, node) :: inserted else inserted)
      returned (idx + 1) maxn := by
  obtain ⟨g_len, g_sh, g_ci, g_key, g_cells, g_mem, g_bkt⟩ :=
    getOrCreate_spec mids k cap hc.mids_len
  set pool1 := pool.set idx node with hpool1
  set gc := getOrCreate mids k cap with hgc
  set b := (gc.1.getD gc.2.1 []).getD gc.2.2 default with hb
  -- the located bucket's heap is well-formed
  have hbwf : b.value.heap.length = b.value.capacity ∧
      b.value.size_ ≤ b.value.capacity := by
    rcases g_bkt with hmemb | hfresh
    · exact hc.heap_wf b hmemb
    · rw [hfresh]
      exact ⟨by simp [LockFreeHeap.init], by simp [LockFreeHeap.init]⟩
  -- the fresh index is in none of the old cells, nor inserted, nor returned
  have hfresh_cells : some idx ∉ allCells mids := fun hmem =>
    absurd (hc.cells_lt idx hmem) (by omega)
  have hfresh_ret : idx ∉ returned := fun hmem =>
    absurd (hc.ret_lt idx hmem) (by omega)
  -- old entries of the pool are untouched
  have hpool_old : ∀ e ∈ inserted, pool1.getD e.2.1 default = e.2.2 := by
    intro e he
    rw [hpool1, getD_set_ne (by have := hc.ins_lt e he; omega)]
    exact hc.ins_pool e he
  -- decomposition of the cell multiset around the located bucket
  obtain ⟨pre, post, hdec1, hdec2⟩ := allCells_update gc.1 gc.2.1 gc.2.2
    (by omega) g_ci ((b.value.push pool1 idx).1)
  rw [g_cells] at hdec1
  rcases push_characterize pool1 b.value idx hbwf.1 with
    ⟨hpeq, _⟩ | ⟨hptrue, hpsz, hpcap, hplen, hplt, hpcells⟩
  · -- push failed: the heap written back is the unchanged heap
    rw [hpeq]
    simp only [Prod.snd, if_neg (by simp : ¬ (false = true))]
    rw [hpeq] at hdec2
    simp only [Prod.fst] at hdec2
    have hsame : allCells (setBucketHeap gc.1 gc.2.1 gc.2.2 b.value)
        = allCells mids := by rw [hdec2, hdec1]
    refine {
      pool_len := by simp [hpool1, hc.pool_len]
      mids_len := by unfold setBucketHeap; simp [g_len]
      heap_wf := ?_
      ins_lt := fun e he => lt_of_lt_of_le (hc.ins_lt e he) (by omega)
      ins_pool := hpool_old
      cells_ins := ?_
      uniq := by intro id; rw [hsame]; exact hc.uniq id
      cells_lt := by
        intro id hid
        rw [hsame] at hid
        exact lt_of_lt_of_le (hc.cells_lt id hid) (by omega)
      ret_lt := fun id hid => lt_of_lt_of_le (hc.ret_lt id hid) (by omega) }
    · intro bn hbn
      rcases setBucketHeap_mem _ _ _ _ _ hbn with hm | hm
      · rcases g_mem bn hm with hm2 | hm2
        · exact hc.heap_wf bn hm2
        · rw [hm2]
          exact ⟨by simp [LockFreeHeap.init], by simp [LockFreeHeap.init]⟩
      · rw [hm]
        exact hbwf
    · intro bn hbn id hid
      rcases setBucketHeap_mem _ _ _ _ _ hbn with hm | hm
      · rcases g_mem bn hm with hm2 | hm2
        · exact hc.cells_ins bn hm2 id hid
        · rw [hm2] at hid
          rw [init_cells] at hid
          cases hid
      · rw [hm] at hid ⊢
        simp only at hid ⊢
        rcases g_bkt with hmemb | hfresh
        · exact (hb ▸ hc.cells_ins b hmemb id hid).imp (fun r hr => by
            simpa [g_key] using hr)
        · rw [hfresh, init_cells] at hid
          cases hid
  · -- push succeeded: the bucket gains exactly the fresh cell `some idx`
    rw [if_pos hptrue]
    have hcount : ∀ x, ((b.value.push pool1 idx).1.cells).count x
        = (some idx :: b.value.cells).count x := fun x => count_perm hpcells x
    refine {
      pool_len := by simp [hpool1, hc.pool_len]
      mids_len := by unfold setBucketHeap; simp [g_len]
      heap_wf := ?_
      ins_lt := ?_
      ins_pool := ?_
      cells_ins := ?_
      uniq := ?_
      cells_lt := ?_
      ret_lt := fun id hid => lt_of_lt_of_le (hc.ret_lt id hid) (by omega) }
    · intro bn hbn
      rcases setBucketHeap_mem _ _ _ _ _ hbn with hm | hm
      · rcases g_mem bn hm with hm2 | hm2
        · exact hc.heap_wf bn hm2
        · rw [hm2]
          exact ⟨by simp [LockFreeHeap.init], by simp [LockFreeHeap.init]⟩
      · rw [hm]
        exact ⟨by rw [hplen, hpcap], by rw [hpsz, hpcap]; omega⟩
    · intro e he
      rcases List.mem_cons.1 he with he | he
      · rw [he]
        exact Nat.lt_succ_self idx
      · exact lt_of_lt_of_le (hc.ins_lt e he) (by omega)
    · intro e he
      rcases List.mem_cons.1 he with he | he
      · rw [he, hpool1]
        exact getD_set_self (by rw [hc.pool_len]; omega) _ _
      · exact hpool_old e he
    · intro bn hbn id hid
      rcases setBucketHeap_mem _ _ _ _ _ hbn with hm | hm
      · rcases g_mem bn hm with hm2 | hm2
        · exact (hc.cells_ins bn hm2 id hid).imp (fun r hr => List.mem_cons_of_mem _ hr)
        · rw [hm2] at hid
          rw [init_cells] at hid
          cases hid
      · rw [hm, ← hb] at hid ⊢
        dsimp only at hid ⊢
        have hmm : some id ∈ some idx :: b.value.cells := hpcells.mem_iff.1 hid
        rcases List.mem_cons.1 hmm with hx | hx
        · cases hx
          exact ⟨node, by rw [g_key]; exact List.mem_cons_self _ _⟩
        · rcases g_bkt with hmemb | hfresh
          · obtain ⟨r, hr⟩ := hc.cells_ins b hmemb id hx
            exact ⟨r, List.mem_cons_of_mem _ hr⟩
          · rw [hfresh, init_cells] at hx
            cases hx
    · intro x
      have e1 : (allCells mids).count (some x)
          = pre.count (some x) + (b.value.cells.count (some x) + post.count (some x)) := by
        rw [hdec1]
        simp only [List.count_append, ← hb]
      have e2 : (allCells (setBucketHeap gc.1 gc.2.1 gc.2.2
          (b.value.push pool1 idx).1)).count (some x)
          = pre.count (some x) + ((some idx :: b.value.cells).count (some x)
            + post.count (some x)) := by
        rw [hdec2]
        simp only [List.count_append, hcount]
      by_cases hx : x = idx
      · subst hx
        have h0 : (allCells mids).count (some x) = 0 :=
          List.count_eq_zero.2 hfresh_cells
        have h0r : returned.count x = 0 := List.count_eq_zero.2 hfresh_ret
        rw [e2, h0r]
        rw [e1] at h0
        simp [List.count_cons] at h0 ⊢
        omega
      · have := hc.uniq x
        rw [e1] at this
        rw [e2]
        simp [List.count_cons, hx]
        omega
    · intro x hx
      rw [hdec2] at hx
      rcases List.mem_append.1 hx with hx | hx
      · have : some x ∈ allCells mids := by rw [hdec1]; exact List.mem_append_left _ hx
        exact lt_of_lt_of_le (hc.cells_lt x this) (by omega)
      · rcases List.mem_append.1 hx with hx | hx
        · have : some x ∈ some idx :: b.value.cells := hpcells.mem_iff.1 hx
          rcases List.mem_cons.1 this with hy | hy
          · cases hy; omega
          · have : some x ∈ allCells mids := by
              rw [hdec1]
              exact List.mem_append_right _ (List.mem_append_left _ hy)
            exact lt_of_lt_of_le (hc.cells_lt x this) (by omega)
        · have : some x ∈ allCells mids := by
            rw [hdec1]
            exact List.mem_append_right _ (List.mem_append_right _ hx)
          exact lt_of_lt_of_le (hc.cells_lt x this) (by omega)

/-- `insert` preserves the invariant. -/
theorem insert_preserves (s : RadialCircularList) (now : Nat) (v : ℚ) (k : Key)
    (p : Int) (e : ℚ) (hinv : Inv s) : Inv (s.insert now v k p e).1 := by
  obtain ⟨hc, hflag⟩ := hinv
  unfold RadialCircularList.insert
  dsimp only
  split
  · exact ⟨hc, hflag⟩
  · next h1 =>
    split
    · next h2 =>
      refine ⟨hc.mono (Nat.le_succ _), ?_⟩
      intro hfl
      obtain ⟨hpt, htm⟩ := hflag hfl
      omega
    · next h2 =>
      have hpb := push_block s.node_pool s.midpoints s.inserted s.returned
        s.max_nodes ⟨v, p, now, ttlToNs e⟩ k s.pool_index (s.max_nodes / 10)
        hc (by omega)
      split
      · next hok =>
        rw [if_pos hok] at hpb
        refine ⟨hpb, ?_⟩
        intro hfl
        obtain ⟨hpt, htm⟩ := hflag hfl
        dsimp only
        omega
      · next hok =>
        rw [if_neg hok] at hpb
        exact ⟨hpb, fun hfl => by cases hfl⟩

/-- `get_highest_priority` preserves the invariant. -/
theorem get_preserves (s : RadialCircularList) (nowAt : Nat → Nat) (k : Key)
    (hinv : Inv s) : Inv (s.get_highest_priority nowAt k).1 := by
  obtain ⟨hc, hflag⟩ := hinv
  unfold RadialCircularList.get_highest_priority
  dsimp only
  cases hf : chainFind (s.midpoints.getD (hash k) []) k with
  | none => exact ⟨hc, hflag⟩
  | some ci =>
    dsimp only
    have hsh : hash k < 64 := Nat.mod_lt _ (by decide)
    obtain ⟨hci, hkey⟩ := chainFind_spec _ _ _ hf
    have hbmem : bucketMem ((s.midpoints.getD (hash k) []).getD ci default)
        s.midpoints :=
      ⟨s.midpoints.getD (hash k) [], getD_mem (by rw [hc.mids_len]; omega) [],
        getD_mem hci default⟩
    set b := (s.midpoints.getD (hash k) []).getD ci default with hbdef
    obtain ⟨hblen, hbsz⟩ := hc.heap_wf b hbmem
    obtain ⟨⟨l_len, l_sz, l_cap⟩, dropped, l_perm, l_res⟩ :=
      get_node_loop_spec s.node_pool nowAt b.value.size_ 0 b.value hblen hbsz
    set gr := get_node_loop s.node_pool nowAt 0 b.value.size_ b.value with hgr
    have hgreq : MidpointNode.get_highest_priority_node s.node_pool nowAt b.value
        = gr := rfl
    rw [hgreq]
    obtain ⟨pre, post, hdec1, hdec2⟩ := allCells_update s.midpoints (hash k) ci
      (by rw [hc.mids_len]; omega) hci gr.1
    rw [← hbdef] at hdec1
    have count_all : ∀ x : Option Nat, (allCells s.midpoints).count x
        = pre.count x + (dropped.count x + (gr.1.cells.count x + post.count x)) := by
      intro x
      rw [hdec1]
      simp only [List.count_append]
      have hcp := count_perm l_perm x
      rw [List.count_append] at hcp
      omega
    have count_all2 : ∀ x : Option Nat,
        (allCells (setBucketHeap s.midpoints (hash k) ci gr.1)).count x
          = pre.count x + (gr.1.cells.count x + post.count x) := by
      intro x
      rw [hdec2]
      simp only [List.count_append]
    have mem_all2 : ∀ x : Option Nat,
        x ∈ allCells (setBucketHeap s.midpoints (hash k) ci gr.1) →
          x ∈ allCells s.midpoints := by
      intro x hx
      have h1 : 0 < (allCells (setBucketHeap s.midpoints (hash k) ci gr.1)).count x :=
        List.count_pos_iff.2 hx
      rw [count_all2] at h1
      apply List.count_pos_iff.1
      rw [count_all x]
      omega
    have hwf2 : ∀ bn, bucketMem bn (setBucketHeap s.midpoints (hash k) ci gr.1) →
        bn.value.heap.length = bn.value.capacity ∧
          bn.value.size_ ≤ bn.value.capacity := by
      intro bn hbn
      rcases setBucketHeap_mem _ _ _ _ _ hbn with hm | hm
      · exact hc.heap_wf bn hm
      · rw [hm, ← hbdef]
        dsimp only
        exact ⟨by rw [l_len], by rw [l_cap] at l_sz ⊢; exact l_sz⟩
    have hcells2 : ∀ bn, bucketMem bn (setBucketHeap s.midpoints (hash k) ci gr.1) →
        ∀ id, some id ∈ bn.value.cells → ∃ r, (bn.key, id, r) ∈ s.inserted := by
      intro bn hbn id hid
      rcases setBucketHeap_mem _ _ _ _ _ hbn with hm | hm
      · exact hc.cells_ins bn hm id hid
      · rw [hm, ← hbdef] at hid ⊢
        dsimp only at hid ⊢
        have hin : some id ∈ b.value.cells :=
          l_perm.symm.mem_iff.1 (List.mem_append_right _ hid)
        exact hc.cells_ins b hbmem id hin
    have hmlen : (setBucketHeap s.midpoints (hash k) ci gr.1).length = 64 := by
      unfold setBucketHeap
      simp [hc.mids_len]
    cases hres : gr.2 with
    | none =>
      dsimp only
      refine ⟨{
        pool_len := hc.pool_len
        mids_len := hmlen
        heap_wf := hwf2
        ins_lt := hc.ins_lt
        ins_pool := hc.ins_pool
        cells_ins := hcells2
        uniq := ?_
        cells_lt := ?_
        ret_lt := hc.ret_lt }, hflag⟩
      · intro x
        have hu := hc.uniq x
        rw [count_all (some x)] at hu
        rw [count_all2]
        try dsimp only
        omega
      · intro x hx
        exact hc.cells_lt x (mem_all2 _ hx)
    | some id =>
      dsimp only
      obtain ⟨hdropped, _⟩ := l_res id hres
      have hid_cells : some id ∈ allCells s.midpoints := by
        apply List.count_pos_iff.1
        rw [count_all (some id)]
        have := List.count_pos_iff.2 hdropped
        omega
      refine ⟨{
        pool_len := hc.pool_len
        mids_len := hmlen
        heap_wf := hwf2
        ins_lt := hc.ins_lt
        ins_pool := hc.ins_pool
        cells_ins := hcells2
        uniq := ?_
        cells_lt := ?_
        ret_lt := ?_ }, hflag⟩
      · intro x
        have hu := hc.uniq x
        rw [count_all (some x)] at hu
        rw [count_all2, List.count_cons]
        try dsimp only
        by_cases hx : id = x
        · subst hx
          have := List.count_pos_iff.2 hdropped
          rw [if_pos (by simp)]
          omega
        · rw [if_neg (by simp [hx])]
          omega
      · intro x hx
        exact hc.cells_lt x (mem_all2 _ hx)
      · intro x hx
        rcases List.mem_cons.1 hx with hx | hx
        · subst hx
          exact hc.cells_lt x hid_cells
        · exact hc.ret_lt x hx

/-- The batch loop preserves the core invariant, advancing the id bound by
one per item; it never touches the pool index, the total count or the
returned list, and only ever raises the push-failure flag. -/
theorem batchLoop_invcore (nowAt : Nat → Nat) (start : Nat) :
    ∀ (items : List (ℚ × Key × Int × ℚ)) (s : RadialCircularList) (i : Nat),
      InvCore s.node_pool s.midpoints s.inserted s.returned (start + i)
        s.max_nodes →
      start + i + items.length ≤ s.max_nodes →
      InvCore (batchLoop nowAt start s i items).node_pool
        (batchLoop nowAt start s i items).midpoints
        (batchLoop nowAt start s i items).inserted
        (batchLoop nowAt start s i items).returned
        (start + i + items.length) (batchLoop nowAt start s i items).max_nodes ∧
      (batchLoop nowAt start s i items).max_nodes = s.max_nodes ∧
      (batchLoop nowAt start s i items).pool_index = s.pool_index ∧
      (batchLoop nowAt start s i items).total_nodes = s.total_nodes ∧
      (batchLoop nowAt start s i items).returned = s.returned ∧
      ((batchLoop nowAt start s i items).pushFailed = false →
        s.pushFailed = false) := by
  intro items
  induction items with
  | nil =>
    intro s i hcore hbound
    exact ⟨hcore, rfl, rfl, rfl, rfl, fun h => h⟩
  | cons item rest ih =>
    intro s i hcore hbound
    obtain ⟨v, k, p, e⟩ := item
    have hlen1 : start + i + (rest.length + 1) ≤ s.max_nodes := by
      simpa using hbound
    have hpb := push_block s.node_pool s.midpoints s.inserted s.returned
      s.max_nodes ⟨v, p, nowAt i, ttlToNs e⟩ k (start + i) (s.max_nodes / 10)
      hcore (by omega)
    simp only [batchLoop]
    split
    · next hok =>
      rw [if_pos hok] at hpb
      obtain ⟨c1, c2, c3, c4, c5, c6⟩ := ih
        { s with
            node_pool := s.node_pool.set (start + i) ⟨v, p, nowAt i, ttlToNs e⟩,
            midpoints := setBucketHeap
              (getOrCreate s.midpoints k (s.max_nodes / 10)).1
              (getOrCreate s.midpoints k (s.max_nodes / 10)).2.1
              (getOrCreate s.midpoints k (s.max_nodes / 10)).2.2
              ((((getOrCreate s.midpoints k (s.max_nodes / 10)).1.getD
                  (getOrCreate s.midpoints k (s.max_nodes / 10)).2.1 []).getD
                  (getOrCreate s.midpoints k (s.max_nodes / 10)).2.2
                  default).value.push
                (s.node_pool.set (start + i) ⟨v, p, nowAt i, ttlToNs e⟩)
                (start + i)).1,
            inserted := (k, start + i, ⟨v, p, nowAt i, ttlToNs e⟩) :: s.inserted }
        (i + 1) (by exact hpb) (by dsimp only; omega)
      refine ⟨?_, by exact c2, by exact c3, by exact c4, by exact c5,
        fun hfl => c6 hfl⟩
      have harith : start + i + ((v, k, p, e) :: rest).length
          = start + (i + 1) + rest.length := by
        simp only [List.length_cons]
        omega
      rw [harith]
      exact c1
    · next hok =>
      rw [if_neg hok] at hpb
      obtain ⟨c1, c2, c3, c4, c5, c6⟩ := ih
        { s with
            node_pool := s.node_pool.set (start + i) ⟨v, p, nowAt i, ttlToNs e⟩,
            midpoints := setBucketHeap
              (getOrCreate s.midpoints k (s.max_nodes / 10)).1
              (getOrCreate s.midpoints k (s.max_nodes / 10)).2.1
              (getOrCreate s.midpoints k (s.max_nodes / 10)).2.2
              ((((getOrCreate s.midpoints k (s.max_nodes / 10)).1.getD
                  (getOrCreate s.midpoints k (s.max_nodes / 10)).2.1 []).getD
                  (getOrCreate s.midpoints k (s.max_nodes / 10)).2.2
                  default).value.push
                (s.node_pool.set (start + i) ⟨v, p, nowAt i, ttlToNs e⟩)
                (start + i)).1,
            pushFailed := true }
        (i + 1) (by exact hpb) (by dsimp only; omega)
      refine ⟨?_, by exact c2, by exact c3, by exact c4, by exact c5,
        fun hfl => Bool.noConfusion (c6 hfl)⟩
      have harith : start + i + ((v, k, p, e) :: rest).length
          = start + (i + 1) + rest.length := by
        simp only [List.length_cons]
        omega
      rw [harith]
      exact c1

/-- `insert_batch` preserves the invariant. -/
theorem insert_batch_preserves (s : RadialCircularList) (nowAt : Nat → Nat)
    (batch : List (ℚ × Key × Int × ℚ)) (hinv : Inv s) :
    Inv (s.insert_batch nowAt batch).1 := by
  obtain ⟨hc, hflag⟩ := hinv
  unfold RadialCircularList.insert_batch
  dsimp only
  split
  · exact ⟨hc, hflag⟩
  · next h1 =>
    split
    · next h2 =>
      refine ⟨hc.mono (Nat.le_add_right _ _), ?_⟩
      intro hfl
      obtain ⟨hpt, htm⟩ := hflag hfl
      omega
    · next h2 =>
      obtain ⟨c1, c2, c3, c4, c5, c6⟩ := batchLoop_invcore nowAt s.pool_index
        batch { s with pool_index := s.pool_index + batch.length } 0
        (by
          show InvCore s.node_pool s.midpoints s.inserted s.returned
            (s.pool_index + 0) s.max_nodes
          simpa using hc)
        (by
          show s.pool_index + 0 + batch.length ≤ s.max_nodes
          omega)
      set s2 := batchLoop nowAt s.pool_index
        { s with pool_index := s.pool_index + batch.length } 0 batch with hs2
      have e2 : s2.max_nodes = s.max_nodes := c2
      have e3 : s2.pool_index = s.pool_index + batch.length := c3
      have e4 : s2.total_nodes = s.total_nodes := c4
      refine ⟨?_, ?_⟩
      · show InvCore s2.node_pool s2.midpoints s2.inserted s2.returned
          s2.pool_index s2.max_nodes
        rw [e3]
        have harith : s.pool_index + 0 + batch.length
            = s.pool_index + batch.length := by omega
        rw [harith] at c1
        exact c1
      · intro hfl
        have hsf : s.pushFailed = false := c6 hfl
        obtain ⟨hpt, htm⟩ := hflag hsf
        show s2.pool_index = s2.total_nodes + batch.length ∧
          s2.total_nodes + batch.length ≤ s2.max_nodes
        rw [e2, e3, e4]
        omega

/-- Every sequential API call preserves the invariant. -/
theorem step_preserves (s : RadialCircularList) (op : Op) (hinv : Inv s) :
    Inv (s.step op) := by
  cases op with
  | ins now v k p e => exact insert_preserves s now v k p e hinv
  | insB nowAt b => exact insert_batch_preserves s nowAt b hinv
  | getHP nowAt k => exact get_preserves s nowAt k hinv

/-- The invariant holds after any sequential trace. -/
theorem run_preserves : ∀ (ops : List Op) (s : RadialCircularList),
    Inv s → Inv (s.run ops) := by
  intro ops
  induction ops with
  | nil => intro s h; exact h
  | cons op rest ih =>
    intro s h
    rw [RadialCircularList.run, List.foldl_cons]
    exact ih _ (step_preserves s op h)

/-- Claim C2.  Scenario S1 on a cache of default capacity (the
`RadialCircularList` constructor's default is `max = 1000`): insert
`(100.0, "AAPL", 1, 60)`, `(101.0, "AAPL", 3, 60)`, `(100.5, "AAPL", 2, 60)`
single-threadedly with nothing expiring (all clock reads return 0); then
four successive `get_highest_priority("AAPL")` calls return the record
with value 101.0 and priority 3, then the one with priority 2, then the
one with priority 1, then none. -/
theorem claim_C2_priority_order_scenario :
    (runGets ((RadialCircularList.init 1000 0).run
        [.ins 0 100 keyAAPL 1 60, .ins 0 101 keyAAPL 3 60,
         .ins 0 val100_5 keyAAPL 2 60])
      [(fun _ => 0, keyAAPL), (fun _ => 0, keyAAPL), (fun _ => 0, keyAAPL),
       (fun _ => 0, keyAAPL)]).2.map
      (Option.map (fun p => (p.2.value, p.2.priority)))
    = [some (101, 3), some (val100_5, 2), some (100, 1), none] := by
  decide

/-- The four successive valid inserts of claim C3 on a cache constructed
with `max_nodes = 3` (positive TTL, all clock reads 0). -/
def c3Inserts : List (Nat × ℚ × Key × Int × ℚ) :=
  [(0, 100, keyAAPL, 1, 60), (0, 101, keyAAPL, 3, 60),
   (0, val100_5, keyAAPL, 2, 60), (0, 102, keyAAPL, 4, 60)]

/-- Counterexample to claim C3: with `max_nodes = 3` the four inserts do
not return `true, true, true, false` — every bucket heap is created with
capacity `3 / 10 = 0`, so every push fails and every insert returns
`false`. -/
theorem claim_C3_counterexample :
    (runInserts (RadialCircularList.init 3 0) c3Inserts).2
      ≠ [true, true, true, false] := by
  decide

/-- Claim C3 as amended: for a cache constructed with `max_nodes = 3`,
four successive single-threaded insert calls (valid arguments, positive
TTL) all return `false` (the per-bucket heap capacity is `3 / 10 = 0`, so
every push fails as bucket-full). -/
theorem claim_C3_amended_all_false :
    (runInserts (RadialCircularList.init 3 0) c3Inserts).2
      = [false, false, false, false] := by
  decide

/-- Counterexample to claim C5: on a cache with `max_nodes = 1`, two
insert calls leave `pool_index = 2 > 1 = max_nodes` — the first insert's
push fails against its capacity-`0` bucket heap, so `total_nodes` stays 0
and the second insert advances the pool index past `max_nodes`. -/
theorem claim_C5_counterexample :
    ((runInserts (RadialCircularList.init 1 0)
        [(0, 100, keyAAPL, 1, 60), (0, 101, keyAAPL, 2, 60)]).1.pool_index >
      (runInserts (RadialCircularList.init 1 0)
        [(0, 100, keyAAPL, 1, 60), (0, 101, keyAAPL, 2, 60)]).1.max_nodes) := by
  decide

/-- The per-item loop of `insert_batch` never touches `total_nodes`. -/
theorem batchLoop_total_nodes (nowAt : Nat → Nat) (start : Nat) :
    ∀ (batch : List (ℚ × Key × Int × ℚ)) (s : RadialCircularList) (i : Nat),
      (batchLoop nowAt start s i batch).total_nodes = s.total_nodes := by
  intro batch
  induction batch with
  | nil => intro s i; rfl
  | cons head rest ih =>
    intro s i
    obtain ⟨v, k, p, e⟩ := head
    simp only [batchLoop, ih]
    split <;> rfl

/-- Claim C6.  If `insert_batch(items)` passes both capacity checks
(`total_nodes + |items| ≤ max_nodes`, and the reserved pool range ends at
or before `max_nodes`), it returns `true` and increments `total_nodes` by
exactly `|items|` — with no hypothesis on the per-item pushes, which may
all fail; failed items are silently dropped, no error reaches the
caller. -/
theorem claim_C6_batch_capacity_semantics (s : RadialCircularList)
    (nowAt : Nat → Nat) (batch : List (ℚ × Key × Int × ℚ))
    (h1 : ¬ s.total_nodes + batch.length > s.max_nodes)
    (h2 : ¬ s.pool_index + batch.length > s.max_nodes) :
    (s.insert_batch nowAt batch).2 = true ∧
      (s.insert_batch nowAt batch).1.total_nodes
        = s.total_nodes + batch.length := by
  unfold RadialCircularList.insert_batch
  simp only [if_neg h1, if_neg h2]
  exact ⟨trivial, by simp [batchLoop_total_nodes]⟩

/-- Witness for claim C6, at a state where every push does fail: a batch
of two items on a fresh `max_nodes = 5` cache (every bucket heap has
capacity `5 / 10 = 0`) still returns `true` and sets `total_nodes = 2`. -/
theorem claim_C6_witness :
    (¬ (RadialCircularList.init 5 0).total_nodes + 2 > 5 ∧
       ¬ (RadialCircularList.init 5 0).pool_index + 2 > 5) ∧
    (((RadialCircularList.init 5 0).insert_batch (fun _ => 0)
        [(100, keyAAPL, 1, 60), (101, keyAAPL, 2, 60)]).2 = true ∧
      ((RadialCircularList.init 5 0).insert_batch (fun _ => 0)
        [(100, keyAAPL, 1, 60), (101, keyAAPL, 2, 60)]).1.total_nodes
        = (RadialCircularList.init 5 0).total_nodes + 2) :=
  ⟨by decide,
   claim_C6_batch_capacity_semantics (RadialCircularList.init 5 0) (fun _ => 0)
     [(100, keyAAPL, 1, 60), (101, keyAAPL, 2, 60)] (by decide) (by decide)⟩

/-- Claim C7.  For clock values with no `uint64_t` wraparound
(`timestamp_ns ≤ now < 2^64`), `is_expired` is true iff
`now - timestamp_ns > expiry_time_ns`; at the exact boundary
(`now - timestamp_ns = expiry_time_ns`) the record is live, and such a
boundary record is returned by `get_highest_priority` rather than
discarded (closed third conjunct: a record inserted at time 0 with TTL 60 s
is returned at exactly `now = 60·10^9` ns). -/
theorem claim_C7_expiry_strict_boundary (n : Node) (now : Nat)
    (h1 : n.timestamp_ns ≤ now) (h2 : now < U64MOD) :
    (n.is_expired now = true ↔ now - n.timestamp_ns > n.expiry_time_ns) ∧
    (now - n.timestamp_ns = n.expiry_time_ns → n.is_expired now = false) ∧
    ((((RadialCircularList.init 10 0).insert 0 100 keyAAPL 1 60).1.get_highest_priority
        (fun _ => 60000000000) keyAAPL).2.map (fun p => p.2.priority) = some 1) := by
  have hsub : u64sub now n.timestamp_ns = now - n.timestamp_ns := by
    unfold u64sub U64MOD
    unfold U64MOD at h2
    omega
  refine ⟨?_, ?_, by decide⟩
  · simp [Node.is_expired, hsub]
  · intro hb
    simp [Node.is_expired, hsub, hb]

/-- Witness for claim C7 at `n = ⟨0, 0, 0, 0⟩`, `now = 0`. -/
theorem claim_C7_witness :
    ((0 : Nat) ≤ 0 ∧ (0 : Nat) < U64MOD) ∧
    ((Node.is_expired ⟨0, 0, 0, 0⟩ 0 = true ↔ 0 - 0 > 0) ∧
     (0 - 0 = 0 → Node.is_expired ⟨0, 0, 0, 0⟩ 0 = false) ∧
     ((((RadialCircularList.init 10 0).insert 0 100 keyAAPL 1 60).1.get_highest_priority
        (fun _ => 60000000000) keyAAPL).2.map (fun p => p.2.priority) = some 1)) :=
  ⟨by decide, claim_C7_expiry_strict_boundary ⟨0, 0, 0, 0⟩ 0 (by decide) (by decide)⟩

/-- An execution of the `get_or_create` race model in which both threads
complete and both their nodes are reachable: thread 1 wins the install,
thread 2 loads the new head afterwards and its CAS also succeeds, so the
chain ends as `[⟨2, AAPL⟩, ⟨1, AAPL⟩]` — two buckets for one key. -/
theorem MapRace.both_install_reachable :
    MapRace.Reachable keyAAPL
      ⟨[⟨2, keyAAPL⟩, ⟨1, keyAAPL⟩], .done 1, .done 2⟩ := by
  have s1 : MapRace.Step keyAAPL ⟨[], .start, .start⟩ ⟨[], .atLoop, .start⟩ :=
    MapRace.Step.thread1 (MapRace.TStep.fastMiss [] (by decide))
  have s2 : MapRace.Step keyAAPL ⟨[], .atLoop, .start⟩ ⟨[], .atLoop, .atLoop⟩ :=
    MapRace.Step.thread2 (MapRace.TStep.fastMiss [] (by decide))
  have s3 : MapRace.Step keyAAPL ⟨[], .atLoop, .atLoop⟩
      ⟨[], .atCAS none, .atLoop⟩ :=
    MapRace.Step.thread1 (MapRace.TStep.load [])
  have s4 : MapRace.Step keyAAPL ⟨[], .atCAS none, .atLoop⟩
      ⟨[⟨1, keyAAPL⟩], .done 1, .atLoop⟩ :=
    MapRace.Step.thread1 (MapRace.TStep.casOk [] none rfl)
  have s5 : MapRace.Step keyAAPL ⟨[⟨1, keyAAPL⟩], .done 1, .atLoop⟩
      ⟨[⟨1, keyAAPL⟩], .done 1, .atCAS (some 1)⟩ :=
    MapRace.Step.thread2 (MapRace.TStep.load [⟨1, keyAAPL⟩])
  have s6 : MapRace.Step keyAAPL ⟨[⟨1, keyAAPL⟩], .done 1, .atCAS (some 1)⟩
      ⟨[⟨2, keyAAPL⟩, ⟨1, keyAAPL⟩], .done 1, .done 2⟩ :=
    MapRace.Step.thread2 (MapRace.TStep.casOk [⟨1, keyAAPL⟩] (some 1) rfl)
  exact .head s1 (.head s2 (.head s3 (.head s4 (.head s5 (.head s6 .refl)))))

/-- Counterexample to claim C4: an execution of two concurrent
`get_or_create("AAPL")` calls reaches a key index holding *two* buckets
for the key — "at most one bucket per distinct key ever becomes
reachable" is false.  (The loser of the head race never re-traverses: the
slow path retries the CAS against the new head and installs its own node.) -/
theorem claim_C4_counterexample :
    ∃ c : MapRace.Config, MapRace.Reachable keyAAPL c ∧
      (c.chain.filter (fun n => n.key = keyAAPL)).length = 2 :=
  ⟨⟨[⟨2, keyAAPL⟩, ⟨1, keyAAPL⟩], .done 1, .done 2⟩,
   MapRace.both_install_reachable, by decide⟩

/-- Claim C4 as amended: when the shard-head CAS fails, `get_or_create`
re-loads the head and retries the CAS *without* re-traversing for the key
and without ever discarding its freshly allocated node — from the CAS
point a thread either installs its own node at the head or loops back,
nothing else (first conjunct) — and consequently two concurrent
`get_or_create` calls on the same key can both install their buckets, so
more than one bucket per key can become reachable (second conjunct: an
execution in which both threads finish with their own distinct nodes,
both reachable in the chain). -/
theorem claim_C4_amended_no_retraverse :
    (∀ (k : Key) (a : Nat) (snap : Option Nat)
        (chain chain' : List MapRace.ChainNode) (st' : MapRace.TState),
        MapRace.TStep k a chain (.atCAS snap) chain' st' →
          (st' = .done a ∧ chain' = ⟨a, k⟩ :: chain) ∨
          (st' = .atLoop ∧ chain' = chain)) ∧
    (∃ c : MapRace.Config, MapRace.Reachable keyAAPL c ∧
        c.chain = [⟨2, keyAAPL⟩, ⟨1, keyAAPL⟩] ∧
        c.t1 = .done 1 ∧ c.t2 = .done 2) := by
  constructor
  · intro k a snap chain chain' st' h
    cases h with
    | casOk _ _ => exact Or.inl ⟨rfl, rfl⟩
    | casFail _ _ => exact Or.inr ⟨rfl, rfl⟩
  · exact ⟨⟨[⟨2, keyAAPL⟩, ⟨1, keyAAPL⟩], .done 1, .done 2⟩,
      MapRace.both_install_reachable, rfl, rfl, rfl⟩

/-- Witness for claim C4's amended theorem, at the concrete successful
CAS step of thread 1 from the empty chain. -/
theorem claim_C4_amended_witness :
    (MapRace.TState.done 1 = MapRace.TState.done 1 ∧
      ([⟨1, keyAAPL⟩] : List MapRace.ChainNode) = [⟨1, keyAAPL⟩]) ∨
    (MapRace.TState.done 1 = MapRace.TState.atLoop ∧
      ([⟨1, keyAAPL⟩] : List MapRace.ChainNode) = []) :=
  claim_C4_amended_no_retraverse.1 keyAAPL 1 none [] [⟨1, keyAAPL⟩] (.done 1)
    (MapRace.TStep.casOk [] none rfl)

/-- XOR commutes with reduction modulo `256 = 2^8`. -/
theorem xor_mod_256 (x y : Nat) : (x ^^^ y) % 256 = (x % 256 ^^^ y % 256) % 256 := by
  have h256 : (256 : Nat) = 2 ^ 8 := rfl
  apply Nat.eq_of_testBit_eq
  intro i
  rw [h256]
  simp only [Nat.testBit_mod_two_pow, Nat.testBit_xor]
  cases hd : decide (i < 8) <;>
    cases x.testBit i <;> cases y.testBit i <;> simp

/-- The sign extension in `static_cast<uint64_t>(c)` does not change the
low byte. -/
theorem charToU64_mod_256 (b : Nat) : charToU64 b % 256 = b % 256 := by
  unfold charToU64 U64MOD
  split_ifs <;> omega

/-- One hash-loop iteration of the source (sign-extending cast) and of
the spec's FNV-1a agree modulo 256 whenever the accumulators do. -/
theorem hashStep_cong (h h' b : Nat) (hh : h % 256 = h' % 256) :
    hashStep h b % 256 = fnv1aSpecStep h' b % 256 := by
  unfold hashStep fnv1aSpecStep
  have hdvd : (256 : Nat) ∣ U64MOD := by unfold U64MOD; norm_num
  rw [Nat.mod_mod_of_dvd _ hdvd, Nat.mod_mod_of_dvd _ hdvd,
    Nat.mul_mod, Nat.mul_mod (h' ^^^ b)]
  rw [xor_mod_256, xor_mod_256 h' b, hh, charToU64_mod_256]

/-- The full hash loops agree modulo 256 from congruent accumulators. -/
theorem hash_foldl_cong : ∀ (key : Key) (h h' : Nat), h % 256 = h' % 256 →
    (key.foldl hashStep h) % 256 = (key.foldl fnv1aSpecStep h') % 256 := by
  intro key
  induction key with
  | nil => intro h h' hh; simpa using hh
  | cons b rest ih =>
    intro h h' hh
    simp only [List.foldl_cons]
    exact ih _ _ (hashStep_cong _ _ _ hh)

/-- Claim C9.  For every key (a byte string: every entry below 256), the
shard index the key index uses — `LockFreeHashTable::hash`, whose
`static_cast<uint64_t>(c)` sign-extends the platform's signed `char` —
equals the spec's 64-bit FNV-1a hash of the byte sequence reduced modulo
`BUCKETS = 64`: the sign extension only alters bits above the low byte,
which cannot reach the residue modulo 64. -/
theorem claim_C9_shard_is_fnv1a_mod_64 (key : Key) (_hb : ∀ b ∈ key, b < 256) :
    hash key = fnv1aSpec key % BUCKETS := by
  unfold hash fnv1aSpec BUCKETS
  have hc := hash_foldl_cong key FNV_OFFSET FNV_OFFSET rfl
  have hdvd : (64 : Nat) ∣ 256 := by norm_num
  have e1 : (key.foldl hashStep FNV_OFFSET) % 64
      = (key.foldl hashStep FNV_OFFSET) % 256 % 64 :=
    (Nat.mod_mod_of_dvd _ hdvd).symm
  have e2 : (key.foldl fnv1aSpecStep FNV_OFFSET) % 64
      = (key.foldl fnv1aSpecStep FNV_OFFSET) % 256 % 64 :=
    (Nat.mod_mod_of_dvd _ hdvd).symm
  rw [e1, e2, hc]

/-- Witness for claim C9 at the key "AAPL". -/
theorem claim_C9_witness :
    (∀ b ∈ keyAAPL, b < 256) ∧ hash keyAAPL = fnv1aSpec keyAAPL % BUCKETS :=
  ⟨by decide, claim_C9_shard_is_fnv1a_mod_64 keyAAPL (by decide)⟩

/-- Claim C1.  After any single-threaded trace of `insert`, `insert_batch`
and retrieval calls, `get_highest_priority(k)` returns either none or a
record that was previously inserted under key `k` (the ghost `inserted`
log records (key, slot, record) for every successful push) and that
passed its expiry check inside the call: `j` is the retrieval-loop
iteration whose clock read `nowAt j` the check used. -/
theorem claim_C1_returns_live_inserted (max now0 : Nat) (ops : List Op)
    (nowAt : Nat → Nat) (k : Key) :
    (((RadialCircularList.init max now0).run ops).get_highest_priority nowAt k).2
      = none ∨
    ∃ id r j,
      (((RadialCircularList.init max now0).run ops).get_highest_priority
        nowAt k).2 = some (id, r) ∧
      (k, id, r) ∈ ((RadialCircularList.init max now0).run ops).inserted ∧
      r.is_expired (nowAt j) = false := by
  obtain ⟨hc, _⟩ := run_preserves ops _ (Inv_init max now0)
  set s := (RadialCircularList.init max now0).run ops with hs
  unfold RadialCircularList.get_highest_priority
  dsimp only
  cases hf : chainFind (s.midpoints.getD (hash k) []) k with
  | none => exact Or.inl rfl
  | some ci =>
    dsimp only
    obtain ⟨hci, hkey⟩ := chainFind_spec _ _ _ hf
    have hbmem : bucketMem ((s.midpoints.getD (hash k) []).getD ci default)
        s.midpoints :=
      ⟨_, getD_mem (by rw [hc.mids_len]; exact Nat.mod_lt _ (by decide)) [],
        getD_mem hci default⟩
    set b := (s.midpoints.getD (hash k) []).getD ci default with hbdef
    obtain ⟨hblen, hbsz⟩ := hc.heap_wf b hbmem
    obtain ⟨_, dropped, l_perm, l_res⟩ :=
      get_node_loop_spec s.node_pool nowAt b.value.size_ 0 b.value hblen hbsz
    set gr := get_node_loop s.node_pool nowAt 0 b.value.size_ b.value with hgr
    have hgreq : MidpointNode.get_highest_priority_node s.node_pool nowAt b.value
        = gr := rfl
    rw [hgreq]
    cases hres : gr.2 with
    | none => exact Or.inl rfl
    | some id =>
      dsimp only
      obtain ⟨hdropped, j, hexp⟩ := l_res id hres
      have hmemb : some id ∈ b.value.cells :=
        l_perm.symm.mem_iff.1 (List.mem_append_left _ hdropped)
      obtain ⟨r, hr⟩ := hc.cells_ins b hbmem id hmemb
      have hpool : s.node_pool.getD id default = r := hc.ins_pool _ hr
      refine Or.inr ⟨id, s.node_pool.getD id default, j, rfl, ?_, ?_⟩
      · rw [hpool]
        rw [hkey] at hr
        exact hr
      · exact hexp

/-- Claim C8.  Across any single-threaded trace, no arena slot is ever
returned twice by `get_highest_priority`: the ghost `returned` log of all
returned slots has no duplicate. -/
theorem claim_C8_no_double_return (max now0 : Nat) (ops : List Op) :
    ((RadialCircularList.init max now0).run ops).returned.Nodup := by
  obtain ⟨hc, _⟩ := run_preserves ops _ (Inv_init max now0)
  rw [List.nodup_iff_count_le_one]
  intro a
  have := hc.uniq a
  omega

/-- Claim C5 as amended: the pool index can exceed `max_nodes` (see the
counterexample: a failed bucket push advances the pool index but not
`total_nodes`), but whenever no bucket push has failed in the trace, the
pool index equals `total_nodes` and stays at most `max_nodes`. -/
theorem claim_C5_amended_pool_bound (max now0 : Nat) (ops : List Op)
    (hns : ((RadialCircularList.init max now0).run ops).pushFailed = false) :
    ((RadialCircularList.init max now0).run ops).pool_index
        = ((RadialCircularList.init max now0).run ops).total_nodes ∧
      ((RadialCircularList.init max now0).run ops).pool_index
        ≤ ((RadialCircularList.init max now0).run ops).max_nodes := by
  obtain ⟨_, hflag⟩ := run_preserves ops _ (Inv_init max now0)
  obtain ⟨h1, h2⟩ := hflag hns
  exact ⟨h1, by omega⟩

/-- Witness for claim C5's amended theorem: one successful insert on a
`max_nodes = 50` cache (bucket capacity 5, so the push succeeds). -/
theorem claim_C5_amended_witness :
    ((RadialCircularList.init 50 0).run
      [.ins 0 100 keyAAPL 1 60]).pushFailed = false ∧
    (((RadialCircularList.init 50 0).run [.ins 0 100 keyAAPL 1 60]).pool_index
        = ((RadialCircularList.init 50 0).run
            [.ins 0 100 keyAAPL 1 60]).total_nodes ∧
      ((RadialCircularList.init 50 0).run [.ins 0 100 keyAAPL 1 60]).pool_index
        ≤ ((RadialCircularList.init 50 0).run
            [.ins 0 100 keyAAPL 1 60]).max_nodes) :=
  ⟨by decide, claim_C5_amended_pool_bound 50 0 [.ins 0 100 keyAAPL 1 60] (by decide)⟩

/-- State shape of a small cache (`max_nodes < 10`) on which inserts have
only ever failed: every bucket heap has capacity `max_nodes / 10 = 0`. -/
def SmallInv (s : RadialCircularList) (max : Nat) : Prop :=
  s.max_nodes = max ∧ s.total_nodes = 0 ∧ s.midpoints.length = 64 ∧
  ∀ bn, bucketMem bn s.midpoints → bn.value.capacity = 0

theorem small_insert_step (s : RadialCircularList) (max now : Nat) (v : ℚ)
    (k : Key) (p : Int) (e : ℚ) (h1 : 1 ≤ max) (h10 : max < 10)
    (hs : SmallInv s max) :
    (s.insert now v k p e).2 = false ∧
    (s.insert now v k p e).1.pool_index = s.pool_index + 1 ∧
    SmallInv (s.insert now v k p e).1 max := by
  obtain ⟨hmax, htot, hlen, hcap⟩ := hs
  unfold RadialCircularList.insert
  dsimp only
  rw [if_neg (by omega)]
  by_cases h2 : s.pool_index ≥ s.max_nodes
  · rw [if_pos h2]
    exact ⟨rfl, rfl, hmax, htot, hlen, hcap⟩
  · rw [if_neg h2]
    obtain ⟨g_len, g_sh, g_ci, g_key, g_cells, g_mem, g_bkt⟩ :=
      getOrCreate_spec s.midpoints k (s.max_nodes / 10) hlen
    set gc := getOrCreate s.midpoints k (s.max_nodes / 10) with hgc
    set b := (gc.1.getD gc.2.1 []).getD gc.2.2 default with hbdef
    have hdiv : s.max_nodes / 10 = 0 := by omega
    have hbcap : b.value.capacity = 0 := by
      rcases g_bkt with hm | hfr
      · exact hcap b hm
      · rw [hfr]
        exact hdiv
    have hfail : ∀ pl : List Node,
        b.value.push pl s.pool_index = (b.value, false) := by
      intro pl
      unfold LockFreeHeap.push
      rw [if_pos (by rw [hbcap]; exact Nat.zero_le _)]
    rw [hfail]
    refine ⟨rfl, rfl, hmax, htot, ?_, ?_⟩
    · unfold setBucketHeap
      simp [g_len]
    · intro bn hbn
      rcases setBucketHeap_mem _ _ _ _ _ hbn with hm | hm
      · rcases g_mem bn hm with hm2 | hm2
        · exact hcap bn hm2
        · rw [hm2]
          exact hdiv
      · rw [hm, ← hbdef]
        exact hbcap

theorem runInserts_small (max : Nat) (h1 : 1 ≤ max) (h10 : max < 10) :
    ∀ (args : List (Nat × ℚ × Key × Int × ℚ)) (s : RadialCircularList),
      SmallInv s max →
      (∀ r ∈ (runInserts s args).2, r = false) ∧
      (runInserts s args).1.pool_index = s.pool_index + args.length := by
  intro args
  induction args with
  | nil =>
    intro s _
    refine ⟨?_, rfl⟩
    intro r hr
    cases hr
  | cons a rest ih =>
    intro s hs
    obtain ⟨now, v, k, p, e⟩ := a
    obtain ⟨hfalse, hpool, hinv⟩ := small_insert_step s max now v k p e h1 h10 hs
    obtain ⟨c1, c2⟩ := ih (s.insert now v k p e).1 hinv
    simp only [runInserts]
    constructor
    · intro r hr
      rcases List.mem_cons.1 hr with hr | hr
      · rw [hr, hfalse]
      · exact c1 r hr
    · rw [c2, hpool]
      simp [List.length_cons]
      omega

/-- Claim C10 as amended: on a cache constructed with `1 ≤ max_nodes < 10`,
every insert call of any single-threaded sequence of inserts returns
`false` and advances the pool index by exactly one per call (every bucket
heap is created with capacity `max_nodes / 10 = 0`, so every push fails
as bucket-full); for `max_nodes = 0` all inserts also return `false`, but
they fail the `total_nodes` precheck and do not advance the pool index
(see the counterexample). -/
theorem claim_C10_amended_small_cache (max now0 : Nat) (h1 : 1 ≤ max)
    (h10 : max < 10) (args : List (Nat × ℚ × Key × Int × ℚ)) :
    (∀ r ∈ (runInserts (RadialCircularList.init max now0) args).2, r = false) ∧
    (runInserts (RadialCircularList.init max now0) args).1.pool_index
      = args.length := by
  have hsm : SmallInv (RadialCircularList.init max now0) max := by
    refine ⟨rfl, rfl, by simp [RadialCircularList.init], ?_⟩
    intro bn ⟨chain, hchain, hbn⟩
    have hchain2 : chain = [] :=
      List.eq_of_mem_replicate (show chain ∈ List.replicate 64 [] from hchain)
    rw [hchain2] at hbn
    cases hbn
  obtain ⟨c1, c2⟩ := runInserts_small max h1 h10 args
    (RadialCircularList.init max now0) hsm
  have h0 : (RadialCircularList.init max now0).pool_index = 0 := rfl
  rw [h0, Nat.zero_add] at c2
  exact ⟨c1, c2⟩

/-- Witness for claim C10's amended theorem at `max_nodes = 5` and two
insert calls. -/
theorem claim_C10_amended_witness :
    ((1 : Nat) ≤ 5 ∧ (5 : Nat) < 10) ∧
    ((∀ r ∈ (runInserts (RadialCircularList.init 5 0)
        [(0, 100, keyAAPL, 1, 60), (1, 101, keyAAPL, 2, 60)]).2, r = false) ∧
      (runInserts (RadialCircularList.init 5 0)
        [(0, 100, keyAAPL, 1, 60), (1, 101, keyAAPL, 2, 60)]).1.pool_index = 2) :=
  ⟨by decide, claim_C10_amended_small_cache 5 0 (by decide) (by decide)
    [(0, 100, keyAAPL, 1, 60), (1, 101, keyAAPL, 2, 60)]⟩

/-- Counterexample to claim C10: on a cache constructed with
`max_nodes = 0 < 10`, an insert call returns `false` but does *not*
advance the pool index — it fails the `total_nodes ≥ max_nodes` precheck
before the fetch-add, contradicting the claim that the pool index
advances by one on each attempt. -/
theorem claim_C10_counterexample :
    ((RadialCircularList.init 0 0).insert 0 100 keyAAPL 1 60).2 = false ∧
    ((RadialCircularList.init 0 0).insert 0 100 keyAAPL 1 60).1.pool_index = 0 := by
  decide

end HFTCache
